import Mathlib

set_option maxRecDepth 8000

/-!
Verification of the goracler padding-oracle attack library.

The Go sources are embedded shallowly over `List Nat`, where each element is
one byte (an invariant `x < 256` carried as hypotheses where needed).  Machine
`byte` subtraction `byte(16) - byte(p)` appears only with `p < 16`, where it
agrees with truncated `Nat` subtraction, so `16 - p` is used.

The concurrent worker pool of `decryptBlock` is modelled as follows: the pool
queries the oracle on every guess of the guess channel (`guessValues`), the
result sink receives every success (`successes`, in guess order) and every
transport error (`firstErr` picks the representative error), and the engine's
"take the last value written to the sink" step is modelled by a schedule
function `σ : List Nat → Nat` that picks one element of the success list
(hypothesis `PickFn`).  Every outcome of the real racing pool corresponds to
some such `σ`; the concrete schedules `pickFirst` and `pickLast` are used for
witnesses and counterexamples.

Fallible Go functions returning `(value, error)` pairs are embedded as pairs
`List Nat × Option (GErr ε)` for the two drivers (`Decrypt`, `Encrypt`), and
as `Except` for the inner engine, mirroring the Go returns.
-/

/-- Error taxonomy of the library: `ErrInvalidCiphertext`, the
"no byte found after a valid attempt" error, and transport errors surfaced
verbatim from the oracle. -/
inductive GErr (ε : Type) where
  | invalidCiphertext : GErr ε
  | noByteFound : GErr ε
  | transport : ε → GErr ε
deriving DecidableEq, Repr

/-- Oracle querier shape (interface `Poracle`): a query returns an `Int`-like
answer (positive means the pad was reported valid) or a transport error. -/
def OracleF (ε : Type) : Type := List Nat → Except ε Nat

instance {ε α : Type} [DecidableEq ε] [DecidableEq α] : DecidableEq (Except ε α) := fun x y =>
  match x, y with
  | .ok a, .ok b =>
    if h : a = b then .isTrue (by rw [h])
    else .isFalse (fun hc => h (by injection hc))
  | .error e, .error f =>
    if h : e = f then .isTrue (by rw [h])
    else .isFalse (fun hc => h (by injection hc))
  | .ok _, .error _ => .isFalse (fun hc => Except.noConfusion hc)
  | .error _, .ok _ => .isFalse (fun hc => Except.noConfusion hc)

/-- CipherBlockLen from the source: the block length in bytes. -/
def CipherBlockLen : Nat := 16

/-- Extracts the i-th 16-byte block of a byte sequence, as the Go drivers do
with the slice `c[16*i : 16*i+16]`. -/
def blockAt (c : List Nat) (i : Nat) : List Nat :=
  (c.drop (i * 16)).take 16

/-- BlockXOR from crypto.go: `res[i] = block[i] ^ key[i % len(key)]`. -/
def blockXOR (block key : List Nat) : List Nat :=
  (List.range block.length).map
    (fun i => block.getD i 0 ^^^ key.getD (i % key.length) 0)

/-- PCKCS5Pad from crypto.go: append `r = 16 - len(m) % 16` bytes of value
`r`. -/
def pkcs5Pad (m : List Nat) : List Nat :=
  m ++ List.replicate (16 - m.length % 16) (16 - m.length % 16)

/-- Splits a byte sequence into its consecutive 16-byte blocks. -/
def toBlocks (m : List Nat) : List (List Nat) :=
  (List.range (m.length / 16)).map (fun i => (m.drop (i * 16)).take 16)

/-- Loop of DecryptRemovePCKCS5Pad: pop the last byte `j` times, failing when
it differs from the announced pad value `p`. -/
def removePadLoop (p : Nat) : Nat → List Nat → Except Unit (List Nat)
  | 0, m => .ok m
  | j + 1, m =>
    if m.getD (m.length - 1) 0 = p then removePadLoop p j (m.take (m.length - 1))
    else .error ()

/-- DecryptRemovePCKCS5Pad from crypto.go: read the last byte as the pad
length `p`, reject unless `1 ≤ p ≤ 16`, then pop and check `p` bytes. -/
def removePCKCS5Pad (m : List Nat) : Except Unit (List Nat) :=
  let p := m.getD (m.length - 1) 0
  if 16 < p ∨ p < 1 then .error () else removePadLoop p p m

/-- CBC encryption chain of CBCEncrypt: each plaintext block is XORed with the
previous ciphertext block (initially the IV) and sent through the block
cipher `E`. Returns the list of ciphertext blocks. -/
def cbcEncList (E : List Nat → List Nat) : List (List Nat) → List Nat → List (List Nat)
  | [], _ => []
  | b :: bs, prev =>
    let x := E (blockXOR b prev)
    x :: cbcEncList E bs x

/-- CBCEncrypt from crypto.go on raw bytes (the hex layer is dropped): pad the
message, run the CBC chain, and prepend the IV. -/
def cbcEncrypt (E : List Nat → List Nat) (iv msg : List Nat) : List Nat :=
  iv ++ (cbcEncList E (toBlocks (pkcs5Pad msg)) iv).flatten

/-- CBC decryption chain of CBCDecrypt: each ciphertext block is deciphered
with `D` and XORed with the previous ciphertext block (initially the IV). -/
def cbcDecList (D : List Nat → List Nat) : List (List Nat) → List Nat → List (List Nat)
  | [], _ => []
  | ci :: cs, prev => blockXOR (D ci) prev :: cbcDecList D cs ci

/-- CBCDecrypt from crypto.go before pad removal: split off the IV and run the
decryption chain. -/
def cbcDecryptRaw (D : List Nat → List Nat) (ct : List Nat) : List Nat :=
  (cbcDecList D (toBlocks (ct.drop 16)) (ct.take 16)).flatten

/-- CBCDecrypt from crypto.go: raw CBC decryption followed by pad removal. -/
def cbcDecrypt (D : List Nat → List Nat) (ct : List Nat) : Except Unit (List Nat) :=
  removePCKCS5Pad (cbcDecryptRaw D ct)

/-- Boolean form of the pad-validity answer of the reference decryptor. -/
def oracleAccepts (D : List Nat → List Nat) (c : List Nat) : Bool :=
  match removePCKCS5Pad (cbcDecryptRaw D c) with
  | .ok _ => true
  | .error _ => false

/-- testOracle.Do from the tests: wrap the true CBC decryptor, answering 1 on
a valid pad and 0 on ErrInvalidPad, never failing. -/
def trueOracle (D : List Nat → List Nat) : OracleF Unit :=
  fun c => .ok (if oracleAccepts D c then 1 else 0)

/-- Guess channel of decryptBlock: values 0..255, skipping `g = prev[p]`
when `p = CipherBlockLen - 1`. -/
def guessValues (p : Nat) (prev : List Nat) : List Nat :=
  (List.range 256).filter (fun g => ¬(g = prev.getD p 0 ∧ p = 15))

/-- Loop of buildPad, iterating the write index `i` downward from 15 to 0 and
threading the `fill` counter: while `fill ≥ 1` the crafted byte is `g` at
position `p` and `pad ^ m[i] ^ c[i]` elsewhere, afterwards `c[i]` is copied.
`buildPadAux p g c m k fill` produces positions `0 .. k-1`, processing index
`k-1` first. -/
def buildPadAux (p g : Nat) (c m : List Nat) : Nat → Nat → List Nat
  | 0, _ => []
  | k + 1, fill =>
    if fill < 1 then buildPadAux p g c m k fill ++ [c.getD k 0]
    else if p = k then buildPadAux p g c m k (fill - 1) ++ [g]
    else buildPadAux p g c m k (fill - 1) ++ [(16 - p) ^^^ m.getD k 0 ^^^ c.getD k 0]

/-- buildPad from the source: craft the fake previous block for position `p`,
guess `g`, real previous block `c` and recovered plaintext bytes `m`.  All
call sites have `p < 16`, where the byte subtraction `byte(16) - byte(p)`
agrees with `16 - p`. -/
def buildPad (p g : Nat) (c m : List Nat) : List Nat :=
  buildPadAux p g c m 16 (16 - p)

/-- Ciphertexts sent to the oracle while attacking position `p`: one crafted
block concatenated with the current block, per guess of the guess channel. -/
def positionQueries (p : Nat) (prev cur mi : List Nat) : List (List Nat) :=
  (guessValues p prev).map (fun g => buildPad p g prev mi ++ cur)

/-- Successful guesses written to the result sink at position `p`: the guesses
whose query the oracle answered with a positive value, in guess order. -/
def successes (q : OracleF ε) (prev cur mi : List Nat) (p : Nat) : List Nat :=
  (guessValues p prev).filterMap (fun g =>
    match q (buildPad p g prev mi ++ cur) with
    | .ok r => if 0 < r then some g else none
    | .error _ => none)

/-- Representative transport error surfaced by the pool at position `p`, if
any query errored. -/
def firstErr (q : OracleF ε) (prev cur mi : List Nat) (p : Nat) : Option ε :=
  (guessValues p prev).findSome? (fun g =>
    match q (buildPad p g prev mi ++ cur) with
    | .ok _ => none
    | .error e => some e)

/-- Schedules: a schedule resolves the sink race by picking one of the
racing successes. -/
def PickFn (σ : List Nat → Nat) : Prop :=
  ∀ l : List Nat, l ≠ [] → σ l ∈ l

/-- Schedule in which the first success in guess order wins the race. -/
def pickFirst : List Nat → Nat := fun l => l.headD 0

/-- Schedule in which the last success in guess order wins the race (the
all-queries-complete order of the source's 256-slot sink). -/
def pickLast : List Nat → Nat := fun l => l.getLastD 0

/-- One byte position of decryptBlock: dispatch the guesses, then read the
sink as the source's engine does — any transport error is returned first,
otherwise the schedule picks among the successes, and an empty sink is the
"no byte found after a valid attempt" error. -/
def positionStep (σ : List Nat → Nat) (q : OracleF ε) (prev cur mi : List Nat)
    (p : Nat) : Except (GErr ε) Nat :=
  match firstErr q prev cur mi p with
  | some e => .error (.transport e)
  | none =>
    match successes q prev cur mi p with
    | [] => .error .noByteFound
    | l => .ok (σ l)

/-- Position loop of decryptBlock: `decryptBlockAux σ q prev cur k mi` still
has positions `k-1 .. 0` to attack; a confirmed value `val` is stored as
`mi[p] = val ^ prev[p] ^ (16 - p)`. -/
def decryptBlockAux (σ : List Nat → Nat) (q : OracleF ε) (prev cur : List Nat) :
    Nat → List Nat → Except (GErr ε) (List Nat)
  | 0, mi => .ok mi
  | k + 1, mi =>
    match positionStep σ q prev cur mi k with
    | .error e => .error e
    | .ok val => decryptBlockAux σ q prev cur k (mi.set k (val ^^^ prev.getD k 0 ^^^ (16 - k)))

/-- decryptBlock from the source: recover the 16 plaintext bytes of `cur`
given its predecessor block `prev`, starting from a zeroed buffer. -/
def decryptBlockS (σ : List Nat → Nat) (q : OracleF ε) (prev cur : List Nat) :
    Except (GErr ε) (List Nat) :=
  decryptBlockAux σ q prev cur 16 (List.replicate 16 0)

/-- Block loop of Decrypt: process blocks `i, i+1, ...` (`k` of them),
appending each recovered block; an engine error drops the bytes recovered so
far and returns `("", err)`. -/
def decryptBlocksAux (σ : List Nat → Nat) (q : OracleF ε) (c : List Nat) :
    Nat → Nat → List Nat → List Nat × Option (GErr ε)
  | 0, _, m => (m, none)
  | k + 1, i, m =>
    match decryptBlockS σ q (blockAt c (i - 1)) (blockAt c i) with
    | .error e => ([], some e)
    | .ok mi => decryptBlocksAux σ q c k (i + 1) (m ++ mi)

/-- Decrypt from the source: validate the ciphertext length, then recover
blocks `1 .. n-1` against their predecessors. -/
def DecryptS (σ : List Nat → Nat) (c : List Nat) (q : OracleF ε) :
    List Nat × Option (GErr ε) :=
  let n := c.length / 16
  if n < 2 then ([], some .invalidCiphertext)
  else if c.length % 16 ≠ 0 then ([], some .invalidCiphertext)
  else decryptBlocksAux σ q c (n - 1) 1 []

/-- Block loop of Encrypt, iterating `i` from `n-1` down to 0: recover the
intermediate of the ciphertext block built last (initially the arbitrary
all-zero final block) using a zero previous block, XOR it with the target
plaintext block, and prepend the result. -/
def encryptAux (σ : List Nat → Nat) (q : OracleF ε) (ctext : List Nat) :
    Nat → List Nat → List Nat → List Nat × Option (GErr ε)
  | 0, _, c => (c, none)
  | k + 1, c1, c =>
    match decryptBlockS σ q (List.replicate 16 0) c1 with
    | .error e => ([], some e)
    | .ok mi =>
      let ti := blockAt ctext k
      let c1' := blockXOR ti mi
      encryptAux σ q ctext k c1' (c1' ++ c)

/-- Encrypt from the source: pad the plaintext and build the ciphertext right
to left. -/
def EncryptS (σ : List Nat → Nat) (txt : List Nat) (q : OracleF ε) :
    List Nat × Option (GErr ε) :=
  let ctext := pkcs5Pad txt
  encryptAux σ q ctext (ctext.length / 16) (List.replicate 16 0) (List.replicate 16 0)

/-- Byte sequences that form one well-bounded cipher block. -/
def ByteBlock (b : List Nat) : Prop :=
  b.length = 16 ∧ ∀ x ∈ b, x < 256

instance : DecidablePred ByteBlock := fun b =>
  inferInstanceAs (Decidable (b.length = 16 ∧ ∀ x ∈ b, x < 256))

/-- Plaintext blocks on which the right-most position of the attack is
unambiguous: the last plaintext byte is not 1 (else the unique length-1 pad
guess is the excluded one), and every longer pad pattern present in the block
corresponds to the excluded original last byte. -/
def goodBlock (P : List Nat) : Prop :=
  P.getD 15 0 ≠ 1 ∧
  ∀ t < 17, 2 ≤ t → (∀ j < 15, 16 - t ≤ j → P.getD j 0 = t) → t = P.getD 15 0

instance : DecidablePred goodBlock := fun P =>
  inferInstanceAs (Decidable (_ ∧ _))

/-- Concatenation of the expected engine outputs for blocks `i .. i+n-1`. -/
def catF (F : Nat → List Nat) : Nat → Nat → List Nat
  | _, 0 => []
  | i, n + 1 => F i ++ catF F (i + 1) n

/-- Chain of blocks built by the Encrypt loop: element 0 is the arbitrary
all-zero final block, and element `j+1` is the block prepended at iteration
`j`, namely the target plaintext block at position `n-1-j` XORed with the
intermediate of the previous chain element. -/
def encChainN (D : List Nat → List Nat) (ctext : List Nat) (n : Nat) : Nat → List Nat
  | 0 => List.replicate 16 0
  | j + 1 => blockXOR (blockAt ctext (n - 1 - j)) (D (encChainN D ctext n j))

/-- Blocks of the ciphertext assembled by Encrypt after `j` iterations, most
recently prepended first. -/
def chainListC (D : List Nat → List Nat) (ctext : List Nat) (n : Nat) : Nat → List (List Nat)
  | 0 => [List.replicate 16 0]
  | j + 1 => encChainN D ctext n (j + 1) :: chainListC D ctext n j

/-! Helper lemmas: bytes, `getD`, and small list facts. -/

lemma xor_lt256 {a b : Nat} (ha : a < 256) (hb : b < 256) : a ^^^ b < 256 := by
  have h256 : (256 : Nat) = 2 ^ 8 := by norm_num
  rw [h256] at ha hb ⊢
  exact Nat.xor_lt_two_pow ha hb

lemma xor_xor_self (a b : Nat) : a ^^^ b ^^^ b = a := by
  rw [Nat.xor_assoc, Nat.xor_self, Nat.xor_zero]

lemma xor_self_xor (a b : Nat) : a ^^^ (a ^^^ b) = b := by
  rw [← Nat.xor_assoc, Nat.xor_self, Nat.zero_xor]

lemma xor_left_cancel {a b c : Nat} (h : a ^^^ b = a ^^^ c) : b = c := by
  have := congrArg (fun x => a ^^^ x) h
  simpa [xor_self_xor] using this

lemma getD_range_map (f : Nat → Nat) (n i : Nat) (h : i < n) :
    ((List.range n).map f).getD i 0 = f i := by
  rw [List.getD_eq_getElem _ _ (by simpa using h)]
  simp

lemma getD_set_self (l : List Nat) (i v : Nat) (h : i < l.length) :
    (l.set i v).getD i 0 = v := by
  rw [List.getD_eq_getElem _ _ (by simpa using h)]
  simp [h]

lemma getD_set_ne (l : List Nat) (i j v : Nat) (h : i ≠ j) :
    (l.set i v).getD j 0 = l.getD j 0 := by
  by_cases hj : j < l.length
  · rw [List.getD_eq_getElem _ _ (by simpa using hj), List.getD_eq_getElem _ _ hj]
    simp [h]
  · rw [List.getD_eq_default _ _ (by simpa using Nat.le_of_not_lt hj),
      List.getD_eq_default _ _ (Nat.le_of_not_lt hj)]

lemma getD_take (l : List Nat) (t i : Nat) (h : i < t) :
    (l.take t).getD i 0 = l.getD i 0 := by
  by_cases hi : i < l.length
  · rw [List.getD_eq_getElem _ _ (by simp; omega), List.getD_eq_getElem _ _ hi]
    simp [List.getElem_take]
  · rw [List.getD_eq_default _ _ (by simp; omega),
      List.getD_eq_default _ _ (Nat.le_of_not_lt hi)]

lemma getD_mem (l : List Nat) (i : Nat) (h : i < l.length) : l.getD i 0 ∈ l := by
  rw [List.getD_eq_getElem _ _ h]
  exact List.getElem_mem h

lemma list_eq_of_getD {a b : List Nat} {n : Nat} (ha : a.length = n) (hb : b.length = n)
    (h : ∀ i < n, a.getD i 0 = b.getD i 0) : a = b := by
  apply List.ext_getElem (by omega)
  intro i h1 h2
  have hi := h i (by omega)
  rwa [List.getD_eq_getElem _ _ h1, List.getD_eq_getElem _ _ h2] at hi

lemma filterMap_if (l : List Nat) (f : Nat → Bool) :
    (l.filterMap fun g => if f g then some g else none) = l.filter f := by
  induction l with
  | nil => rfl
  | cons a t ih =>
    by_cases h : f a <;> simp [List.filterMap_cons, List.filter_cons, h, ih]

lemma filterMap_congr_fn (l : List Nat) (f f' : Nat → Option Nat)
    (h : ∀ a ∈ l, f a = f' a) : l.filterMap f = l.filterMap f' := by
  induction l with
  | nil => rfl
  | cons a t ih =>
    rw [List.filterMap_cons, List.filterMap_cons, h a (by simp),
      ih (fun a ha => h a (by simp [ha]))]

lemma filter_eq_singleton_of_unique {l : List Nat} {f : Nat → Bool} {a : Nat}
    (hnd : l.Nodup) (ha : a ∈ l) (hf : ∀ x ∈ l, f x = true ↔ x = a) :
    l.filter f = [a] := by
  induction l with
  | nil => simp at ha
  | cons b t ih =>
    rcases List.mem_cons.mp ha with hb | hbt
    · subst hb
      have hfa : f a = true := (hf a (by simp)).mpr rfl
      have ht : t.filter f = [] := by
        rw [List.filter_eq_nil_iff]
        intro x hx hfx
        have := (hf x (by simp [hx])).mp hfx
        subst this
        exact (List.nodup_cons.mp hnd).1 hx
      simp [List.filter_cons, hfa, ht]
    · have hba : b ≠ a := by
        rintro rfl
        exact (List.nodup_cons.mp hnd).1 hbt
      have hfb : ¬ f b = true := fun hfb => hba ((hf b (by simp)).mp hfb)
      rw [List.filter_cons]
      simp only [hfb, if_false]
      exact ih (List.nodup_cons.mp hnd).2 hbt (fun x hx => hf x (by simp [hx]))

lemma mem_pickOf {l : List Nat} (h : l ≠ []) : l.getLastD 0 ∈ l := by
  induction l with
  | nil => simp at h
  | cons a t ih =>
    rw [List.getLastD_cons]
    cases t with
    | nil => simp
    | cons b u => simpa using Or.inr (ih (by simp))

lemma pickLast_isPick : PickFn pickLast := fun l h => mem_pickOf h

lemma pickFirst_isPick : PickFn pickFirst := by
  intro l h
  cases l with
  | nil => simp at h
  | cons a t => simp [pickFirst]

/-! Helper lemmas: `blockXOR`. -/

lemma blockXOR_length (a b : List Nat) : (blockXOR a b).length = a.length := by
  simp [blockXOR]

lemma blockXOR_getD16 {a b : List Nat} (ha : a.length = 16) (hb : b.length = 16)
    {i : Nat} (hi : i < 16) :
    (blockXOR a b).getD i 0 = a.getD i 0 ^^^ b.getD i 0 := by
  rw [blockXOR, ha, hb, getD_range_map _ _ _ hi, Nat.mod_eq_of_lt hi]

lemma blockXOR_zero16 {a : List Nat} (ha : a.length = 16) :
    blockXOR a (List.replicate 16 0) = a := by
  apply list_eq_of_getD (n := 16) (by simp [blockXOR_length, ha]) ha
  intro i hi
  rw [blockXOR_getD16 ha (by simp) hi]
  have : (List.replicate 16 (0 : Nat)).getD i 0 = 0 := by
    rw [List.getD_eq_getElem _ _ (by simpa using hi)]
    exact List.getElem_replicate _ _
  rw [this, Nat.xor_zero]

lemma blockXOR_cancel {a b : List Nat} (ha : a.length = 16) (hb : b.length = 16) :
    blockXOR (blockXOR a b) b = a := by
  have h1 : (blockXOR a b).length = 16 := by rw [blockXOR_length, ha]
  apply list_eq_of_getD (n := 16) (by rw [blockXOR_length, h1]) ha
  intro i hi
  rw [blockXOR_getD16 h1 hb hi, blockXOR_getD16 ha hb hi, xor_xor_self]

lemma blockXOR_cancel_left {a b : List Nat} (ha : a.length = 16) (hb : b.length = 16) :
    blockXOR a (blockXOR b a) = b := by
  have h1 : (blockXOR b a).length = 16 := by rw [blockXOR_length, hb]
  apply list_eq_of_getD (n := 16) (by rw [blockXOR_length, ha]) hb
  intro i hi
  rw [blockXOR_getD16 ha h1 hi, blockXOR_getD16 hb ha hi, Nat.xor_comm (b.getD i 0),
    ← Nat.xor_assoc, Nat.xor_self, Nat.zero_xor]

lemma blockXOR_byteBlock {a b : List Nat} (ha : ByteBlock a) (hb : ByteBlock b) :
    ByteBlock (blockXOR a b) := by
  refine ⟨by rw [blockXOR_length, ha.1], ?_⟩
  intro x hx
  rw [blockXOR] at hx
  rcases List.mem_map.mp hx with ⟨i, hi, rfl⟩
  have hi16 : i < 16 := by simpa [ha.1] using List.mem_range.mp hi
  refine xor_lt256 ?_ ?_
  · by_cases h : i < a.length
    · exact ha.2 _ (getD_mem a i h)
    · rw [List.getD_eq_default _ _ (Nat.le_of_not_lt h)]; omega
  · by_cases h : i % b.length < b.length
    · exact hb.2 _ (getD_mem b _ h)
    · rw [List.getD_eq_default _ _ (Nat.le_of_not_lt h)]; omega

/-! Helper lemmas: the crafted block builder. -/

lemma buildPadAux_length (p g : Nat) (c m : List Nat) :
    ∀ k fill, (buildPadAux p g c m k fill).length = k := by
  intro k
  induction k with
  | zero => intro fill; rfl
  | succ k ih =>
    intro fill
    rw [buildPadAux]
    by_cases hf : fill < 1
    · rw [if_pos hf]; simp [ih]
    · rw [if_neg hf]
      by_cases hp : p = k
      · rw [if_pos hp]; simp [ih]
      · rw [if_neg hp]; simp [ih]

lemma buildPadAux_getD (p g : Nat) (c m : List Nat) :
    ∀ k fill i, i < k →
      (buildPadAux p g c m k fill).getD i 0 =
        if fill + i < k then c.getD i 0
        else if p = i then g
        else (16 - p) ^^^ m.getD i 0 ^^^ c.getD i 0 := by
  intro k
  induction k with
  | zero => intro fill i hi; omega
  | succ k ih =>
    intro fill i hi
    by_cases hik : i = k
    · subst hik
      by_cases hf : fill < 1
      · rw [buildPadAux, if_pos hf,
          List.getD_append_right _ _ _ _ (by rw [buildPadAux_length]),
          buildPadAux_length]
        simp only [Nat.sub_self, List.getD]
        rw [if_pos (by omega)]
        rfl
      · by_cases hp : p = i
        · rw [buildPadAux, if_neg hf, if_pos hp,
            List.getD_append_right _ _ _ _ (by rw [buildPadAux_length]),
            buildPadAux_length]
          simp only [Nat.sub_self]
          rw [if_neg (by omega), if_pos hp]
          rfl
        · rw [buildPadAux, if_neg hf, if_neg hp,
            List.getD_append_right _ _ _ _ (by rw [buildPadAux_length]),
            buildPadAux_length]
          simp only [Nat.sub_self]
          rw [if_neg (by omega), if_neg hp]
          rfl
    · have hik' : i < k := by omega
      by_cases hf : fill < 1
      · rw [buildPadAux, if_pos hf,
          List.getD_append _ _ _ _ (by rw [buildPadAux_length]; omega),
          ih fill i hik']
        have h1 : fill + i < k := by omega
        have h2 : fill + i < k + 1 := by omega
        rw [if_pos h1, if_pos h2]
      · have heq :
            (if fill - 1 + i < k then c.getD i 0
             else if p = i then g
             else (16 - p) ^^^ m.getD i 0 ^^^ c.getD i 0) =
            (if fill + i < k + 1 then c.getD i 0
             else if p = i then g
             else (16 - p) ^^^ m.getD i 0 ^^^ c.getD i 0) := by
          have : fill - 1 + i < k ↔ fill + i < k + 1 := by omega
          by_cases hc : fill - 1 + i < k
          · rw [if_pos hc, if_pos (this.mp hc)]
          · rw [if_neg hc, if_neg (fun hcc => hc (this.mpr hcc))]
        by_cases hp : p = i
        · rw [buildPadAux, if_neg hf]
          by_cases hpk : p = k
          · rw [if_pos hpk,
              List.getD_append _ _ _ _ (by rw [buildPadAux_length]; omega),
              ih (fill - 1) i hik', heq]
          · rw [if_neg hpk,
              List.getD_append _ _ _ _ (by rw [buildPadAux_length]; omega),
              ih (fill - 1) i hik', heq]
        · rw [buildPadAux, if_neg hf]
          by_cases hpk : p = k
          · rw [if_pos hpk,
              List.getD_append _ _ _ _ (by rw [buildPadAux_length]; omega),
              ih (fill - 1) i hik', heq]
          · rw [if_neg hpk,
              List.getD_append _ _ _ _ (by rw [buildPadAux_length]; omega),
              ih (fill - 1) i hik', heq]

lemma buildPad_length (p g : Nat) (c m : List Nat) : (buildPad p g c m).length = 16 :=
  buildPadAux_length p g c m 16 (16 - p)

lemma buildPad_getD {p : Nat} (hp : p < 16) (g : Nat) (c m : List Nat)
    {i : Nat} (hi : i < 16) :
    (buildPad p g c m).getD i 0 =
      if i < p then c.getD i 0
      else if p = i then g
      else (16 - p) ^^^ m.getD i 0 ^^^ c.getD i 0 := by
  rw [buildPad, buildPadAux_getD p g c m 16 (16 - p) i hi]
  by_cases hip : i < p
  · rw [if_pos (by omega), if_pos hip]
  · rw [if_neg (by omega), if_neg hip]

/-! Helper lemmas: the guess channel. -/

lemma mem_guessValues {g p : Nat} {prev : List Nat} :
    g ∈ guessValues p prev ↔ g < 256 ∧ ¬(g = prev.getD p 0 ∧ p = 15) := by
  simp only [guessValues, List.mem_filter, List.mem_range, decide_not,
    Bool.not_eq_true', decide_eq_false_iff_not]

lemma guessValues_nodup (p : Nat) (prev : List Nat) : (guessValues p prev).Nodup :=
  (List.nodup_range 256).filter _

lemma guessValues_of_lt15 {p : Nat} (hp : p ≠ 15) (prev : List Nat) :
    guessValues p prev = List.range 256 := by
  rw [guessValues, List.filter_eq_self]
  intro a _
  simp [hp]

/-! Helper lemmas: the pad check of the reference decryptor. -/

lemma removePadLoop_ok_iff (p : Nat) :
    ∀ j (m : List Nat), j ≤ m.length →
      ((∃ r, removePadLoop p j m = .ok r) ↔
        ∀ i < j, m.getD (m.length - 1 - i) 0 = p) := by
  intro j
  induction j with
  | zero => intro m _; simp [removePadLoop]
  | succ j ih =>
    intro m hj
    rw [removePadLoop]
    by_cases h : m.getD (m.length - 1) 0 = p
    · rw [if_pos h]
      have hlen : (m.take (m.length - 1)).length = m.length - 1 := by
        rw [List.length_take]; omega
      rw [ih (m.take (m.length - 1)) (by omega)]
      constructor
      · intro hall i hi
        rcases Nat.eq_zero_or_pos i with hz | hpos
        · subst hz; simpa using h
        · have := hall (i - 1) (by omega)
          rw [hlen, getD_take _ _ _ (by omega)] at this
          have harg : m.length - 1 - 1 - (i - 1) = m.length - 1 - i := by omega
          rwa [harg] at this
      · intro hall i hi
        rw [hlen, getD_take _ _ _ (by omega)]
        have := hall (i + 1) (by omega)
        have harg : m.length - 1 - (i + 1) = m.length - 1 - 1 - i := by omega
        rwa [harg] at this
    · rw [if_neg h]
      constructor
      · rintro ⟨r, hr⟩; exact absurd hr (by simp)
      · intro hall
        exact absurd (by simpa using hall 0 (by omega)) h

lemma removePCKCS5Pad_ok_iff {m : List Nat} (hm : m.length = 16) :
    (∃ r, removePCKCS5Pad m = .ok r) ↔
      (1 ≤ m.getD 15 0 ∧ m.getD 15 0 ≤ 16 ∧
        ∀ j < 16, 16 - m.getD 15 0 ≤ j → m.getD j 0 = m.getD 15 0) := by
  rw [removePCKCS5Pad]
  have h15 : m.length - 1 = 15 := by omega
  simp only [h15]
  by_cases hp : 16 < m.getD 15 0 ∨ m.getD 15 0 < 1
  · rw [if_pos hp]
    constructor
    · rintro ⟨r, hr⟩; exact absurd hr (by simp)
    · intro hall; omega
  · rw [if_neg hp]
    push_neg at hp
    rw [removePadLoop_ok_iff _ _ _ (by omega)]
    constructor
    · intro hall
      refine ⟨by omega, by omega, ?_⟩
      intro j hj hjt
      have := hall (15 - j) (by omega)
      have harg : m.length - 1 - (15 - j) = j := by omega
      rwa [harg] at this
    · rintro ⟨_, _, hall⟩ i hi
      have := hall (15 - i) (by omega) (by omega)
      have harg : m.length - 1 - i = 15 - i := by omega
      rwa [harg]

/-! Characterization of the reference oracle on two-block queries. -/

lemma oracleAccepts_eq_ok (D : List Nat → List Nat) (x : List Nat) :
    oracleAccepts D x = true ↔ ∃ r, removePCKCS5Pad (cbcDecryptRaw D x) = .ok r := by
  rw [oracleAccepts]
  rcases h : removePCKCS5Pad (cbcDecryptRaw D x) with e | r <;> simp

lemma toBlocks_single {cur : List Nat} (hcur : cur.length = 16) :
    toBlocks cur = [cur] := by
  rw [toBlocks, hcur]
  have h1 : (16 : Nat) / 16 = 1 := by norm_num
  have h2 : List.range 1 = [0] := rfl
  rw [h1, h2, List.map_singleton, Nat.zero_mul, List.drop_zero,
    List.take_of_length_le (by omega)]

lemma cbcDecryptRaw_two {crafted cur : List Nat} (D : List Nat → List Nat)
    (hcr : crafted.length = 16) (hcur : cur.length = 16) :
    cbcDecryptRaw D (crafted ++ cur) = blockXOR (D cur) crafted := by
  rw [cbcDecryptRaw, List.drop_left' hcr, List.take_left' hcr, toBlocks_single hcur,
    cbcDecList, cbcDecList]
  simp

lemma oracleAccepts_iff {crafted cur : List Nat} (D : List Nat → List Nat)
    (hcr : crafted.length = 16) (hcur : cur.length = 16) (hI : (D cur).length = 16) :
    oracleAccepts D (crafted ++ cur) = true ↔
      (1 ≤ (blockXOR (D cur) crafted).getD 15 0 ∧
       (blockXOR (D cur) crafted).getD 15 0 ≤ 16 ∧
       ∀ j < 16, 16 - (blockXOR (D cur) crafted).getD 15 0 ≤ j →
         (blockXOR (D cur) crafted).getD j 0 = (blockXOR (D cur) crafted).getD 15 0) := by
  rw [oracleAccepts_eq_ok, cbcDecryptRaw_two D hcr hcur,
    removePCKCS5Pad_ok_iff (by rw [blockXOR_length, hI])]

/-! Lemmas about the pool under the reference oracle. -/

lemma successes_trueOracle (D : List Nat → List Nat) (prev cur mi : List Nat) (p : Nat) :
    successes (trueOracle D) prev cur mi p =
      (guessValues p prev).filter (fun g => oracleAccepts D (buildPad p g prev mi ++ cur)) := by
  rw [successes, ← filterMap_if]
  apply filterMap_congr_fn
  intro g _
  show (match trueOracle D (buildPad p g prev mi ++ cur) with
    | .ok r => if 0 < r then some g else none
    | .error _ => none) = _
  rw [trueOracle]
  by_cases h : oracleAccepts D (buildPad p g prev mi ++ cur) <;> simp [h]

lemma firstErr_trueOracle (D : List Nat → List Nat) (prev cur mi : List Nat) (p : Nat) :
    firstErr (trueOracle D) prev cur mi p = none := by
  rw [firstErr, List.findSome?_eq_none_iff]
  intro g _
  rfl

lemma positionStep_single {σ : List Nat → Nat} (hσ : PickFn σ) {q : OracleF ε}
    {prev cur mi : List Nat} {p a : Nat}
    (herr : firstErr q prev cur mi p = none)
    (hs : successes q prev cur mi p = [a]) :
    positionStep σ q prev cur mi p = .ok a := by
  rw [positionStep, herr, hs]
  have := hσ [a] (by simp)
  simp only [List.mem_singleton] at this
  simp [this]

/-! Unique valid guess at each position, under the reference oracle. -/

lemma successes_at_lt15 {D : List Nat → List Nat} {prev cur : List Nat} {k : Nat}
    (hk : k ≤ 14) (hprev : prev.length = 16) (hcur : cur.length = 16)
    (hI : ByteBlock (D cur)) (mi : List Nat)
    (hmi : ∀ i, k < i → i < 16 → mi.getD i 0 = (blockXOR (D cur) prev).getD i 0) :
    successes (trueOracle D) prev cur mi k = [(16 - k) ^^^ (D cur).getD k 0] := by
  have hk16 : k < 16 := by omega
  have hIlen : (D cur).length = 16 := hI.1
  have hIbyte : ∀ i < 16, (D cur).getD i 0 < 256 := fun i hi =>
    hI.2 _ (getD_mem _ i (by omega))
  rw [successes_trueOracle, guessValues_of_lt15 (by omega)]
  apply filter_eq_singleton_of_unique (List.nodup_range 256)
  · exact List.mem_range.mpr (xor_lt256 (by omega) (hIbyte k hk16))
  · intro g hg
    have hg256 : g < 256 := List.mem_range.mp hg
    have hcl : (buildPad k g prev mi).length = 16 := buildPad_length _ _ _ _
    rw [oracleAccepts_iff D hcl hcur hIlen]
    have hT : ∀ j < 16,
        (blockXOR (D cur) (buildPad k g prev mi)).getD j 0 =
          (D cur).getD j 0 ^^^ (buildPad k g prev mi).getD j 0 :=
      fun j hj => blockXOR_getD16 hIlen hcl hj
    have hPd : ∀ j < 16,
        (blockXOR (D cur) prev).getD j 0 = (D cur).getD j 0 ^^^ prev.getD j 0 :=
      fun j hj => blockXOR_getD16 hIlen hprev hj
    have hTup : ∀ j, k < j → j < 16 →
        (blockXOR (D cur) (buildPad k g prev mi)).getD j 0 = 16 - k := by
      intro j hkj hj
      rw [hT j hj, buildPad_getD hk16 g prev mi hj, if_neg (by omega), if_neg (by omega),
        hmi j hkj hj, hPd j hj, Nat.xor_assoc, xor_xor_self, Nat.xor_comm (16 - k),
        xor_self_xor]
    have hT15 : (blockXOR (D cur) (buildPad k g prev mi)).getD 15 0 = 16 - k :=
      hTup 15 (by omega) (by omega)
    have hTk : (blockXOR (D cur) (buildPad k g prev mi)).getD k 0 =
        (D cur).getD k 0 ^^^ g := by
      rw [hT k hk16, buildPad_getD hk16 g prev mi hk16, if_neg (by omega), if_pos rfl]
    rw [hT15]
    constructor
    · rintro ⟨-, -, hall⟩
      have hjk := hall k hk16 (by omega)
      rw [hTk] at hjk
      have := congrArg (fun x => (D cur).getD k 0 ^^^ x) hjk
      simp only [xor_self_xor] at this
      rw [this, Nat.xor_comm]
    · rintro rfl
      refine ⟨by omega, by omega, ?_⟩
      intro j hj hjge
      rcases Nat.lt_or_ge k j with hkj | hjk
      · rw [hTup j hkj hj]
      · have hjk' : j = k := by omega
        rw [hjk', hTk, Nat.xor_comm (16 - k), xor_self_xor]

lemma successes_at_15 {D : List Nat → List Nat} {prev cur : List Nat}
    (hprev : prev.length = 16) (hcur : cur.length = 16)
    (hI : ByteBlock (D cur)) (hgood : goodBlock (blockXOR (D cur) prev))
    (mi : List Nat) :
    successes (trueOracle D) prev cur mi 15 = [1 ^^^ (D cur).getD 15 0] := by
  have hIlen : (D cur).length = 16 := hI.1
  have hIbyte : ∀ i < 16, (D cur).getD i 0 < 256 := fun i hi =>
    hI.2 _ (getD_mem _ i (by omega))
  have hPd : ∀ j < 16,
      (blockXOR (D cur) prev).getD j 0 = (D cur).getD j 0 ^^^ prev.getD j 0 :=
    fun j hj => blockXOR_getD16 hIlen hprev hj
  have hP15 : (blockXOR (D cur) prev).getD 15 0 =
      (D cur).getD 15 0 ^^^ prev.getD 15 0 := hPd 15 (by omega)
  rw [successes_trueOracle]
  apply filter_eq_singleton_of_unique (guessValues_nodup 15 prev)
  · refine mem_guessValues.mpr ⟨xor_lt256 (by omega) (hIbyte 15 (by omega)), ?_⟩
    rintro ⟨hgp, -⟩
    apply hgood.1
    rw [hP15, ← hgp, Nat.xor_comm 1, ← Nat.xor_assoc, Nat.xor_self, Nat.zero_xor]
  · intro g hg
    have hgne : g ≠ prev.getD 15 0 := by
      rcases mem_guessValues.mp hg with ⟨-, hne⟩
      intro hc
      exact hne ⟨hc, rfl⟩
    have hcl : (buildPad 15 g prev mi).length = 16 := buildPad_length _ _ _ _
    rw [oracleAccepts_iff D hcl hcur hIlen]
    have hT : ∀ j < 16,
        (blockXOR (D cur) (buildPad 15 g prev mi)).getD j 0 =
          (D cur).getD j 0 ^^^ (buildPad 15 g prev mi).getD j 0 :=
      fun j hj => blockXOR_getD16 hIlen hcl hj
    have hTlow : ∀ j, j < 15 →
        (blockXOR (D cur) (buildPad 15 g prev mi)).getD j 0 =
          (blockXOR (D cur) prev).getD j 0 := by
      intro j hj
      rw [hT j (by omega), buildPad_getD (by omega) g prev mi (by omega : j < 16),
        if_pos hj, hPd j (by omega)]
    have hT15 : (blockXOR (D cur) (buildPad 15 g prev mi)).getD 15 0 =
        (D cur).getD 15 0 ^^^ g := by
      rw [hT 15 (by omega), buildPad_getD (by omega) g prev mi (by omega : (15:Nat) < 16),
        if_neg (by omega), if_pos rfl]
    rw [hT15]
    constructor
    · rintro ⟨h1, h16, hall⟩
      rcases Nat.lt_or_ge 1 ((D cur).getD 15 0 ^^^ g) with ht2 | ht1
      · exfalso
        have hpat : ∀ j < 15, 16 - ((D cur).getD 15 0 ^^^ g) ≤ j →
            (blockXOR (D cur) prev).getD j 0 = (D cur).getD 15 0 ^^^ g := by
          intro j hj hjge
          have := hall j (by omega) hjge
          rwa [hTlow j hj] at this
        have heq := hgood.2 ((D cur).getD 15 0 ^^^ g) (by omega) (by omega) hpat
        rw [hP15] at heq
        exact hgne (xor_left_cancel heq)
      · have ht : (D cur).getD 15 0 ^^^ g = 1 := by omega
        have := congrArg (fun x => (D cur).getD 15 0 ^^^ x) ht
        simp only [xor_self_xor] at this
        rw [this, Nat.xor_comm]
    · rintro rfl
      have ht : (D cur).getD 15 0 ^^^ (1 ^^^ (D cur).getD 15 0) = 1 := by
        rw [Nat.xor_comm 1, ← Nat.xor_assoc, Nat.xor_self, Nat.zero_xor]
      rw [ht]
      refine ⟨by omega, by omega, ?_⟩
      intro j hj hjge
      have hj15 : j = 15 := by omega
      subst hj15
      rw [hT15, ht]

lemma xor_left_comm (a b c : Nat) : a ^^^ (b ^^^ c) = b ^^^ (a ^^^ c) := by
  rw [← Nat.xor_assoc, Nat.xor_comm a b, Nat.xor_assoc]

lemma xor_abca (a b c : Nat) : ((a ^^^ b) ^^^ c) ^^^ a = b ^^^ c := by
  rw [Nat.xor_assoc (a ^^^ b) c a, Nat.xor_assoc a b (c ^^^ a), Nat.xor_comm c a,
    xor_left_comm b a c, xor_self_xor]

/-! Correctness of the byte-recovery engine on a block under the reference
oracle. -/

lemma decryptBlockAux_down {D : List Nat → List Nat} {prev cur : List Nat}
    {σ : List Nat → Nat} (hσ : PickFn σ)
    (hprev : prev.length = 16) (hcur : cur.length = 16) (hI : ByteBlock (D cur)) :
    ∀ k, k ≤ 15 → ∀ mi : List Nat, mi.length = 16 →
      (∀ i, k ≤ i → i < 16 → mi.getD i 0 = (blockXOR (D cur) prev).getD i 0) →
      decryptBlockAux σ (trueOracle D) prev cur k mi = .ok (blockXOR (D cur) prev) := by
  intro k
  induction k with
  | zero =>
    intro _ mi hlen hagree
    rw [decryptBlockAux]
    congr 1
    exact list_eq_of_getD hlen (by rw [blockXOR_length, hI.1])
      (fun i hi => hagree i (by omega) hi)
  | succ k ih =>
    intro hk mi hlen hagree
    have hstep : positionStep σ (trueOracle D) prev cur mi k =
        .ok ((16 - k) ^^^ (D cur).getD k 0) :=
      positionStep_single hσ (firstErr_trueOracle D prev cur mi k)
        (successes_at_lt15 (by omega) hprev hcur hI mi
          (fun i h1 h2 => hagree i (by omega) h2))
    rw [decryptBlockAux, hstep]
    apply ih (by omega)
    · rw [List.length_set, hlen]
    · intro i hki hi16
      by_cases hik : i = k
      · rw [hik, getD_set_self _ _ _ (by omega), blockXOR_getD16 hI.1 hprev (by omega)]
        exact xor_abca (16 - k) ((D cur).getD k 0) (prev.getD k 0)
      · rw [getD_set_ne _ _ _ _ (fun h => hik h.symm)]
        exact hagree i (by omega) hi16

lemma decryptBlock_sel {D : List Nat → List Nat} {prev cur : List Nat}
    {σ : List Nat → Nat} (hσ : PickFn σ)
    (hprev : prev.length = 16) (hcur : cur.length = 16) (hI : ByteBlock (D cur))
    (h15 : positionStep σ (trueOracle D) prev cur (List.replicate 16 0) 15 =
      .ok (1 ^^^ (D cur).getD 15 0)) :
    decryptBlockS σ (trueOracle D) prev cur = .ok (blockXOR (D cur) prev) := by
  rw [decryptBlockS]
  have hstep : decryptBlockAux σ (trueOracle D) prev cur (15 + 1) (List.replicate 16 0) =
      decryptBlockAux σ (trueOracle D) prev cur 15
        ((List.replicate 16 0).set 15
          ((1 ^^^ (D cur).getD 15 0) ^^^ prev.getD 15 0 ^^^ (16 - 15))) := by
    rw [decryptBlockAux, h15]
  refine Eq.trans hstep ?_
  apply decryptBlockAux_down hσ hprev hcur hI 15 (by omega)
  · simp
  · intro i h15i hi16
    have hi : i = 15 := by omega
    rw [hi, getD_set_self _ _ _ (by simp), blockXOR_getD16 hI.1 hprev (by omega)]
    have h1615 : (16 : Nat) - 15 = 1 := by norm_num
    rw [h1615]
    exact xor_abca 1 ((D cur).getD 15 0) (prev.getD 15 0)

lemma decryptBlock_true_good {D : List Nat → List Nat} {prev cur : List Nat}
    {σ : List Nat → Nat} (hσ : PickFn σ)
    (hprev : prev.length = 16) (hcur : cur.length = 16) (hI : ByteBlock (D cur))
    (hgood : goodBlock (blockXOR (D cur) prev)) :
    decryptBlockS σ (trueOracle D) prev cur = .ok (blockXOR (D cur) prev) :=
  decryptBlock_sel hσ hprev hcur hI
    (positionStep_single hσ (firstErr_trueOracle D prev cur _ 15)
      (successes_at_15 hprev hcur hI hgood _))

/-! Driver plumbing: indexing blocks of a flattened ciphertext. -/

lemma getD_mem_poly {α : Type} (l : List α) (d : α) (i : Nat) (h : i < l.length) :
    l.getD i d ∈ l := by
  rw [List.getD_eq_getElem _ _ h]
  exact List.getElem_mem h

lemma flatten_length16 :
    ∀ L : List (List Nat), (∀ b ∈ L, b.length = 16) → L.flatten.length = 16 * L.length := by
  intro L
  induction L with
  | nil => intro _; simp
  | cons b t ih =>
    intro h
    rw [List.flatten_cons, List.length_append, h b (by simp), ih (fun x hx => h x (by simp [hx]))]
    simp only [List.length_cons]
    omega

lemma blockAt_flatten :
    ∀ (L : List (List Nat)), (∀ b ∈ L, b.length = 16) →
      ∀ j < L.length, blockAt L.flatten j = L.getD j [] := by
  intro L
  induction L with
  | nil => intro _ j hj; simp at hj
  | cons b t ih =>
    intro h j hj
    cases j with
    | zero =>
      rw [blockAt, Nat.zero_mul, List.drop_zero, List.flatten_cons,
        List.take_left' (h b (by simp))]
      rfl
    | succ j =>
      have hb : b.length = 16 := h b (by simp)
      have hdrop : (b ++ t.flatten).drop ((j + 1) * 16) = t.flatten.drop (j * 16) := by
        have harith : (j + 1) * 16 = 16 + j * 16 := by ring
        rw [harith, ← List.drop_drop, List.drop_left' hb]
      rw [blockAt, List.flatten_cons, hdrop]
      have := ih (fun x hx => h x (by simp [hx])) j (by simpa using hj)
      rw [blockAt] at this
      rw [this]
      rfl

lemma catF_congr {F G : Nat → List Nat} :
    ∀ n i, (∀ j, i ≤ j → j < i + n → F j = G j) → catF F i n = catF G i n := by
  intro n
  induction n with
  | zero => intro i _; rfl
  | succ n ih =>
    intro i h
    rw [catF, catF, h i (by omega) (by omega), ih (i + 1) (fun j h1 h2 => h j (by omega) (by omega))]

lemma catF_shift (F : Nat → List Nat) :
    ∀ n i, catF F (i + 1) n = catF (fun j => F (j + 1)) i n := by
  intro n
  induction n with
  | zero => intro i; rfl
  | succ n ih => intro i; rw [catF, catF, ih (i + 1)]

lemma decryptBlocksAux_chain {ε : Type} {σ : List Nat → Nat} {q : OracleF ε}
    {c : List Nat} (F : Nat → List Nat) :
    ∀ n i,
      (∀ j, i ≤ j → j < i + n →
        decryptBlockS σ q (blockAt c (j - 1)) (blockAt c j) = .ok (F j)) →
      ∀ m, decryptBlocksAux σ q c n i m = (m ++ catF F i n, none) := by
  intro n
  induction n with
  | zero => intro i _ m; simp [decryptBlocksAux, catF]
  | succ n ih =>
    intro i h m
    rw [decryptBlocksAux, h i (by omega) (by omega)]
    show decryptBlocksAux σ q c n (i + 1) (m ++ F i) = _
    rw [ih (i + 1) (fun j h1 h2 => h j (by omega) (by omega)) (m ++ F i), catF,
      List.append_assoc]

/-! Structure of padded messages and their blocks. -/

lemma pkcs5Pad_length_mod (m : List Nat) : (pkcs5Pad m).length % 16 = 0 := by
  rw [pkcs5Pad, List.length_append, List.length_replicate]
  have := Nat.mod_lt m.length (y := 16) (by omega)
  omega

lemma pkcs5Pad_length_pos (m : List Nat) : 16 ≤ (pkcs5Pad m).length := by
  rw [pkcs5Pad, List.length_append, List.length_replicate]
  have := Nat.mod_lt m.length (y := 16) (by omega)
  omega

lemma pkcs5Pad_bytes {m : List Nat} (h : ∀ x ∈ m, x < 256) :
    ∀ x ∈ pkcs5Pad m, x < 256 := by
  intro x hx
  rcases List.mem_append.mp hx with hm | hr
  · exact h x hm
  · have := List.eq_of_mem_replicate hr
    omega

lemma toBlocks_length (m : List Nat) : (toBlocks m).length = m.length / 16 := by
  simp [toBlocks]

lemma toBlocks_blocks16 {m : List Nat} (hmod : m.length % 16 = 0) :
    ∀ b ∈ toBlocks m, b.length = 16 := by
  intro b hb
  rcases List.mem_map.mp hb with ⟨i, hi, rfl⟩
  have hi' : i < m.length / 16 := List.mem_range.mp hi
  rw [List.length_take, List.length_drop]
  have : i * 16 + 16 ≤ m.length := by
    have h1 : (i + 1) * 16 ≤ (m.length / 16) * 16 := Nat.mul_le_mul_right 16 (by omega)
    have h2 : (m.length / 16) * 16 = m.length := Nat.div_mul_cancel (by omega)
    omega
  omega

lemma toBlocks_bytes {m : List Nat} (h : ∀ x ∈ m, x < 256) :
    ∀ b ∈ toBlocks m, ∀ x ∈ b, x < 256 := by
  intro b hb x hx
  rcases List.mem_map.mp hb with ⟨i, _, rfl⟩
  exact h x (List.mem_of_mem_drop (List.mem_of_mem_take hx))

lemma toBlocks_byteBlocks {m : List Nat} (hmod : m.length % 16 = 0)
    (h : ∀ x ∈ m, x < 256) : ∀ b ∈ toBlocks m, ByteBlock b :=
  fun b hb => ⟨toBlocks_blocks16 hmod b hb, toBlocks_bytes h b hb⟩

lemma toBlocks_cons {m : List Nat} (h16 : 16 ≤ m.length) :
    toBlocks m = m.take 16 :: toBlocks (m.drop 16) := by
  rw [toBlocks, toBlocks]
  have hlen : m.length / 16 = (m.drop 16).length / 16 + 1 := by
    rw [List.length_drop]
    omega
  rw [hlen, List.range_succ_eq_map, List.map_cons, Nat.zero_mul, List.drop_zero,
    List.map_map]
  congr 1
  apply List.map_congr_left
  intro i _
  show (m.drop ((i + 1) * 16)).take 16 = ((m.drop 16).drop (i * 16)).take 16
  rw [List.drop_drop]
  congr 2
  ring

lemma flatten_toBlocks :
    ∀ (n : Nat) (m : List Nat), m.length = 16 * n → (toBlocks m).flatten = m := by
  intro n
  induction n with
  | zero =>
    intro m hm
    have : m = [] := List.eq_nil_of_length_eq_zero (by omega)
    subst this
    rfl
  | succ n ih =>
    intro m hm
    rw [toBlocks_cons (by omega), List.flatten_cons, ih (m.drop 16) (by simp; omega),
      List.take_append_drop]

/-! CBC chain facts and full-decrypt correctness with the reference oracle. -/

lemma getD_replicate16 (n v i : Nat) (h : i < n) : (List.replicate n v).getD i 0 = v := by
  rw [List.getD_eq_getElem _ _ (by simpa using h)]
  exact List.getElem_replicate _ _

lemma cbcEncList_byteBlocks {E : List Nat → List Nat}
    (hE : ∀ b, ByteBlock b → ByteBlock (E b)) :
    ∀ (bs : List (List Nat)) (prev : List Nat), (∀ b ∈ bs, ByteBlock b) →
      ByteBlock prev → ∀ y ∈ cbcEncList E bs prev, ByteBlock y := by
  intro bs
  induction bs with
  | nil => intro prev _ _ y hy; simp [cbcEncList] at hy
  | cons b t ih =>
    intro prev hbs hprev y hy
    rw [cbcEncList] at hy
    have hx : ByteBlock (E (blockXOR b prev)) :=
      hE _ (blockXOR_byteBlock (hbs b (by simp)) hprev)
    rcases List.mem_cons.mp hy with rfl | hyt
    · exact hx
    · exact ih _ (fun u hu => hbs u (by simp [hu])) hx y hyt

lemma cbcEncList_decrypt {E D : List Nat → List Nat}
    (hE : ∀ b, ByteBlock b → ByteBlock (E b))
    (hDE : ∀ b, ByteBlock b → D (E b) = b) :
    ∀ (bs : List (List Nat)) (prev : List Nat), (∀ b ∈ bs, ByteBlock b) →
      ByteBlock prev → ∀ j < bs.length,
        D ((prev :: cbcEncList E bs prev).getD (j + 1) []) =
          blockXOR (bs.getD j []) ((prev :: cbcEncList E bs prev).getD j []) := by
  intro bs
  induction bs with
  | nil => intro prev _ _ j hj; simp at hj
  | cons b t ih =>
    intro prev hbs hprev j hj
    rw [cbcEncList]
    cases j with
    | zero =>
      simp only [List.getD_cons_succ, List.getD_cons_zero]
      exact hDE _ (blockXOR_byteBlock (hbs b (by simp)) hprev)
    | succ j =>
      simp only [List.getD_cons_succ]
      have hx : ByteBlock (E (blockXOR b prev)) :=
        hE _ (blockXOR_byteBlock (hbs b (by simp)) hprev)
      exact ih _ (fun u hu => hbs u (by simp [hu])) hx j (by simpa using hj)

lemma DecryptS_valid {ε : Type} (σ : List Nat → Nat) (c : List Nat) (q : OracleF ε)
    (hlen : 32 ≤ c.length) (hmod : c.length % 16 = 0) :
    DecryptS σ c q = decryptBlocksAux σ q c (c.length / 16 - 1) 1 [] := by
  rw [DecryptS]
  have h2 : ¬(c.length / 16 < 2) := by omega
  have h3 : ¬(c.length % 16 ≠ 0) := by omega
  simp only [h2, if_false, h3]

lemma removePadLoop_strip (v : Nat) :
    ∀ j (t : List Nat), removePadLoop v j (t ++ List.replicate j v) = .ok t := by
  intro j
  induction j with
  | zero => intro t; simp [removePadLoop]
  | succ j ih =>
    intro t
    rw [removePadLoop]
    have hlen : (t ++ List.replicate (j + 1) v).length = t.length + (j + 1) := by simp
    have hlast : (t ++ List.replicate (j + 1) v).getD
        ((t ++ List.replicate (j + 1) v).length - 1) 0 = v := by
      rw [hlen]
      have : t.length + (j + 1) - 1 = t.length + j := by omega
      rw [this, List.getD_append_right _ _ _ _ (by omega), Nat.add_sub_cancel_left,
        getD_replicate16 _ _ _ (by omega)]
    rw [if_pos hlast, hlen]
    have htake : (t ++ List.replicate (j + 1) v).take (t.length + (j + 1) - 1) =
        t ++ List.replicate j v := by
      have : t.length + (j + 1) - 1 = t.length + j := by omega
      rw [this, List.take_append, List.take_replicate]
      congr 2
      omega
    rw [htake, ih]

lemma removePad_pkcs5Pad (txt : List Nat) :
    removePCKCS5Pad (pkcs5Pad txt) = .ok txt := by
  have hmlt : txt.length % 16 < 16 := Nat.mod_lt _ (by omega)
  set r := 16 - txt.length % 16 with hr
  have hr1 : 1 ≤ r := by omega
  have hr16 : r ≤ 16 := by omega
  have hlen : (pkcs5Pad txt).length = txt.length + r := by simp [pkcs5Pad]
  have hlast : (pkcs5Pad txt).getD ((pkcs5Pad txt).length - 1) 0 = r := by
    rw [hlen, pkcs5Pad, ← hr]
    have : txt.length + r - 1 = txt.length + (r - 1) := by omega
    rw [this, List.getD_append_right _ _ _ _ (by omega), Nat.add_sub_cancel_left,
      getD_replicate16 _ _ _ (by omega)]
  rw [removePCKCS5Pad]
  simp only [hlast]
  rw [if_neg (by omega)]
  have hsplit : pkcs5Pad txt = txt ++ List.replicate r r := by rw [pkcs5Pad, ← hr]
  rw [hsplit]
  exact removePadLoop_strip r r txt

lemma catF_getD_flatten :
    ∀ bs : List (List Nat), catF (fun j => bs.getD (j - 1) []) 1 bs.length = bs.flatten := by
  intro bs
  induction bs with
  | nil => rfl
  | cons b t ih =>
    show catF (fun j => (b :: t).getD (j - 1) []) 1 (t.length + 1) = b ++ t.flatten
    rw [catF]
    congr 1
    rw [catF_shift]
    rw [catF_congr t.length 1 (G := fun j => t.getD (j - 1) []) ?_, ih]
    intro j h1 _
    have : j + 1 - 1 = (j - 1) + 1 := by omega
    rw [this, List.getD_cons_succ]

lemma cbcEncList_length (E : List Nat → List Nat) :
    ∀ (bs : List (List Nat)) (prev : List Nat), (cbcEncList E bs prev).length = bs.length := by
  intro bs
  induction bs with
  | nil => intro prev; rfl
  | cons b t ih => intro prev; rw [cbcEncList]; simp [ih]

/-- Full decryption attack against a CBC encryption, under the reference
oracle, when every padded-plaintext block is unambiguous at the right-most
position. -/
lemma DecryptS_cbcEncrypt {E D : List Nat → List Nat} {σ : List Nat → Nat}
    (hσ : PickFn σ)
    (hE : ∀ b, ByteBlock b → ByteBlock (E b))
    (hDE : ∀ b, ByteBlock b → D (E b) = b)
    (iv msg : List Nat) (hiv : ByteBlock iv) (hmsg : ∀ x ∈ msg, x < 256)
    (hgood : ∀ b ∈ toBlocks (pkcs5Pad msg), goodBlock b) :
    DecryptS σ (cbcEncrypt E iv msg) (trueOracle D) = (pkcs5Pad msg, none) := by
  set bs := toBlocks (pkcs5Pad msg) with hbs
  have hbsBB : ∀ b ∈ bs, ByteBlock b :=
    toBlocks_byteBlocks (pkcs5Pad_length_mod msg) (pkcs5Pad_bytes hmsg)
  set L := iv :: cbcEncList E bs iv with hL
  have hLBB : ∀ b ∈ L, ByteBlock b := by
    intro b hb
    rcases List.mem_cons.mp hb with rfl | hbt
    · exact hiv
    · exact cbcEncList_byteBlocks hE bs iv hbsBB hiv b hbt
  have hL16 : ∀ b ∈ L, b.length = 16 := fun b hb => (hLBB b hb).1
  have hc : cbcEncrypt E iv msg = L.flatten := by rw [cbcEncrypt, hL, List.flatten_cons]
  have hLlen : L.length = bs.length + 1 := by simp [hL, cbcEncList_length]
  have hclen : (cbcEncrypt E iv msg).length = 16 * (bs.length + 1) := by
    rw [hc, flatten_length16 L hL16, hLlen]
  have hbs1 : 1 ≤ bs.length := by
    have h16 := pkcs5Pad_length_pos msg
    have := toBlocks_length (pkcs5Pad msg)
    rw [← hbs] at this
    omega
  have hAt : ∀ j < L.length, blockAt (cbcEncrypt E iv msg) j = L.getD j [] := by
    intro j hj
    rw [hc]
    exact blockAt_flatten L hL16 j hj
  have hblock : ∀ j, 1 ≤ j → j < 1 + bs.length →
      decryptBlockS σ (trueOracle D) (blockAt (cbcEncrypt E iv msg) (j - 1))
        (blockAt (cbcEncrypt E iv msg) j) = .ok (bs.getD (j - 1) []) := by
    intro j hj1 hj2
    rw [hAt (j - 1) (by omega), hAt j (by omega)]
    have hDrel : D (L.getD j []) = blockXOR (bs.getD (j - 1) []) (L.getD (j - 1) []) := by
      have := cbcEncList_decrypt hE hDE bs iv hbsBB hiv (j - 1) (by omega)
      have harg : j - 1 + 1 = j := by omega
      rw [harg] at this
      exact this
    have hprevBB : ByteBlock (L.getD (j - 1) []) :=
      hLBB _ (getD_mem_poly L [] (j - 1) (by omega))
    have hbsj : bs.getD (j - 1) [] ∈ bs := by
      have : j - 1 < bs.length := by omega
      exact getD_mem_poly bs [] (j - 1) this
    have hbsjBB : ByteBlock (bs.getD (j - 1) []) := hbsBB _ hbsj
    have hIBB : ByteBlock (D (L.getD j [])) := by
      rw [hDrel]
      exact blockXOR_byteBlock hbsjBB hprevBB
    have hPeq : blockXOR (D (L.getD j [])) (L.getD (j - 1) []) = bs.getD (j - 1) [] := by
      rw [hDrel]
      exact blockXOR_cancel hbsjBB.1 hprevBB.1
    have := decryptBlock_true_good hσ hprevBB.1
      (hLBB _ (getD_mem_poly L [] j (by omega))).1 hIBB
      (by rw [hPeq]; exact hgood _ hbsj)
    rw [hPeq] at this
    exact this
  rw [DecryptS_valid σ _ _ (by omega) (by rw [hclen]; omega)]
  have hn : (cbcEncrypt E iv msg).length / 16 - 1 = bs.length := by rw [hclen]; omega
  rw [hn, decryptBlocksAux_chain (fun j => bs.getD (j - 1) []) bs.length 1 hblock [],
    List.nil_append, catF_getD_flatten]
  rw [hbs, flatten_toBlocks ((pkcs5Pad msg).length / 16) (pkcs5Pad msg)
    (by have := pkcs5Pad_length_mod msg; omega)]

/-! The encryption attack: the chain of ciphertext blocks built right to
left. -/

lemma blockAt_length16 {ctext : List Nat} {n i : Nat} (hlen : ctext.length = 16 * n)
    (hi : i < n) : (blockAt ctext i).length = 16 := by
  rw [blockAt, List.length_take, List.length_drop]
  omega

lemma blockAt_byteBlock {ctext : List Nat} {n i : Nat} (hct : ∀ x ∈ ctext, x < 256)
    (hlen : ctext.length = 16 * n) (hi : i < n) : ByteBlock (blockAt ctext i) := by
  refine ⟨blockAt_length16 hlen hi, ?_⟩
  intro x hx
  exact hct x (List.mem_of_mem_drop (List.mem_of_mem_take hx))

lemma zeroBlock_byteBlock : ByteBlock (List.replicate 16 (0 : Nat)) := by
  constructor
  · simp
  · intro x hx
    have := List.eq_of_mem_replicate hx
    omega

lemma encChainN_byteBlock {D : List Nat → List Nat} {ctext : List Nat} {n : Nat}
    (hD : ∀ b, ByteBlock b → ByteBlock (D b)) (hct : ∀ x ∈ ctext, x < 256)
    (hlen : ctext.length = 16 * n) (hn : 1 ≤ n) :
    ∀ j, ByteBlock (encChainN D ctext n j) := by
  intro j
  induction j with
  | zero => exact zeroBlock_byteBlock
  | succ j ih =>
    rw [encChainN]
    exact blockXOR_byteBlock (blockAt_byteBlock hct hlen (by omega)) (hD _ ih)

lemma chainListC_mem_byteBlock {D : List Nat → List Nat} {ctext : List Nat} {n : Nat}
    (hD : ∀ b, ByteBlock b → ByteBlock (D b)) (hct : ∀ x ∈ ctext, x < 256)
    (hlen : ctext.length = 16 * n) (hn : 1 ≤ n) :
    ∀ j, ∀ b ∈ chainListC D ctext n j, ByteBlock b := by
  intro j
  induction j with
  | zero =>
    intro b hb
    rw [chainListC] at hb
    rcases List.mem_singleton.mp hb with rfl
    exact zeroBlock_byteBlock
  | succ j ih =>
    intro b hb
    rw [chainListC] at hb
    rcases List.mem_cons.mp hb with rfl | hbt
    · exact encChainN_byteBlock hD hct hlen hn (j + 1)
    · exact ih b hbt

lemma toBlocks_of_flatten :
    ∀ L : List (List Nat), (∀ b ∈ L, b.length = 16) → toBlocks L.flatten = L := by
  intro L
  induction L with
  | nil => intro _; rfl
  | cons b t ih =>
    intro h
    have hb : b.length = 16 := h b (by simp)
    have h16 : 16 ≤ (b :: t).flatten.length := by
      rw [flatten_length16 _ h]
      simp only [List.length_cons]
      omega
    rw [List.flatten_cons] at h16 ⊢
    rw [toBlocks_cons h16, List.take_left' hb, List.drop_left' hb,
      ih (fun x hx => h x (by simp [hx]))]

/-- One run of the Encrypt loop produces exactly the flattened chain. -/
lemma encryptAux_chain {D : List Nat → List Nat} {σ : List Nat → Nat} (hσ : PickFn σ)
    {ctext : List Nat} {n : Nat}
    (hD : ∀ b, ByteBlock b → ByteBlock (D b)) (hct : ∀ x ∈ ctext, x < 256)
    (hlen : ctext.length = 16 * n) (hn : 1 ≤ n)
    (hgood : ∀ j < n, goodBlock (D (encChainN D ctext n j))) :
    ∀ k j, k + j = n →
      encryptAux σ (trueOracle D) ctext k (encChainN D ctext n j)
        ((chainListC D ctext n j).flatten) =
      ((chainListC D ctext n n).flatten, none) := by
  intro k
  induction k with
  | zero =>
    intro j hj
    have : j = n := by omega
    subst this
    rfl
  | succ k ih =>
    intro j hj
    have hchainBB : ByteBlock (encChainN D ctext n j) :=
      encChainN_byteBlock hD hct hlen hn j
    have hIBB : ByteBlock (D (encChainN D ctext n j)) := hD _ hchainBB
    have hz : blockXOR (D (encChainN D ctext n j)) (List.replicate 16 0) =
        D (encChainN D ctext n j) := blockXOR_zero16 hIBB.1
    have hblock : decryptBlockS σ (trueOracle D) (List.replicate 16 0)
        (encChainN D ctext n j) = .ok (D (encChainN D ctext n j)) := by
      have hzlen : (List.replicate 16 (0 : Nat)).length = 16 := by simp
      have := decryptBlock_true_good hσ hzlen hchainBB.1 hIBB
        (by rw [hz]; exact hgood j (by omega))
      rwa [hz] at this
    rw [encryptAux, hblock]
    show encryptAux σ (trueOracle D) ctext k
        (blockXOR (blockAt ctext k) (D (encChainN D ctext n j)))
        (blockXOR (blockAt ctext k) (D (encChainN D ctext n j)) ++
          (chainListC D ctext n j).flatten) = _
    have hk : k = n - 1 - j := by omega
    have hnext : blockXOR (blockAt ctext k) (D (encChainN D ctext n j)) =
        encChainN D ctext n (j + 1) := by
      rw [encChainN, hk]
    rw [hnext]
    have hacc : encChainN D ctext n (j + 1) ++ (chainListC D ctext n j).flatten =
        (chainListC D ctext n (j + 1)).flatten := by
      rw [chainListC, List.flatten_cons]
    rw [hacc]
    exact ih (j + 1) (by omega)

/-- EncryptS, run against the reference oracle, returns the flattened
chain. -/
lemma EncryptS_chain {D : List Nat → List Nat} {σ : List Nat → Nat} (hσ : PickFn σ)
    (txt : List Nat) (htxt : ∀ x ∈ txt, x < 256)
    (hgood : ∀ j < (pkcs5Pad txt).length / 16,
      goodBlock (D (encChainN D (pkcs5Pad txt) ((pkcs5Pad txt).length / 16) j)))
    (hD : ∀ b, ByteBlock b → ByteBlock (D b)) :
    EncryptS σ txt (trueOracle D) =
      ((chainListC D (pkcs5Pad txt) ((pkcs5Pad txt).length / 16)
        ((pkcs5Pad txt).length / 16)).flatten, none) := by
  set ctext := pkcs5Pad txt with hct
  set n := ctext.length / 16 with hn
  have hmod := pkcs5Pad_length_mod txt
  have hpos := pkcs5Pad_length_pos txt
  rw [← hct] at hmod hpos
  have hlen : ctext.length = 16 * n := by rw [hn]; omega
  have hn1 : 1 ≤ n := by rw [hn]; omega
  have h0 : encChainN D ctext n 0 = List.replicate 16 0 := rfl
  have hacc0 : (chainListC D ctext n 0).flatten = List.replicate 16 0 := by
    rw [chainListC]
    simp
  have hrun := encryptAux_chain hσ hD (by rw [hct]; exact pkcs5Pad_bytes htxt) hlen hn1
    hgood n 0 (by omega)
  rw [h0, hacc0] at hrun
  exact hrun

/-- CBC-decrypting the chain assembled by Encrypt recovers the padded target
text, blockwise from the right. -/
lemma cbcDecList_chain {D : List Nat → List Nat} {ctext : List Nat} {n : Nat}
    (hD : ∀ b, ByteBlock b → ByteBlock (D b)) (hct : ∀ x ∈ ctext, x < 256)
    (hlen : ctext.length = 16 * n) (hn : 1 ≤ n) :
    ∀ j, j + 1 ≤ n →
      (cbcDecList D (chainListC D ctext n j) (encChainN D ctext n (j + 1))).flatten =
        ctext.drop ((n - 1 - j) * 16) := by
  intro j
  induction j with
  | zero =>
    intro hj
    have hzBB : ByteBlock (D (List.replicate 16 0)) := hD _ zeroBlock_byteBlock
    have hx : blockXOR (D (List.replicate 16 0)) (encChainN D ctext n (0 + 1)) =
        blockAt ctext (n - 1 - 0) := by
      show blockXOR (D (List.replicate 16 0))
        (blockXOR (blockAt ctext (n - 1 - 0)) (D (encChainN D ctext n 0))) = _
      exact blockXOR_cancel_left hzBB.1 (blockAt_length16 hlen (by omega))
    rw [chainListC, cbcDecList, cbcDecList, List.flatten_cons, hx]
    have htail : (ctext.drop ((n - 1 - 0) * 16)).length = 16 := by
      rw [List.length_drop]
      have : n - 1 - 0 = n - 1 := by omega
      rw [this]
      have h1 : (n - 1) * 16 = 16 * n - 16 := by omega
      omega
    rw [blockAt, List.take_of_length_le (by omega)]
    simp
  | succ j ih =>
    intro hj
    have hchainBB : ByteBlock (encChainN D ctext n (j + 1)) :=
      encChainN_byteBlock hD hct hlen hn (j + 1)
    have hIBB : ByteBlock (D (encChainN D ctext n (j + 1))) := hD _ hchainBB
    have hx : blockXOR (D (encChainN D ctext n (j + 1))) (encChainN D ctext n (j + 2)) =
        blockAt ctext (n - 1 - (j + 1)) := by
      show blockXOR (D (encChainN D ctext n (j + 1)))
        (blockXOR (blockAt ctext (n - 1 - (j + 1))) (D (encChainN D ctext n (j + 1)))) = _
      exact blockXOR_cancel_left hIBB.1 (blockAt_length16 hlen (by omega))
    rw [chainListC, cbcDecList, List.flatten_cons, hx, ih (by omega)]
    rw [blockAt]
    have hdd : (ctext.drop ((n - 1 - (j + 1)) * 16)).drop 16 =
        ctext.drop ((n - 1 - j) * 16) := by
      rw [List.drop_drop]
      congr 1
      have h1 : n - 1 - (j + 1) + 1 = n - 1 - j := by omega
      calc (n - 1 - (j + 1)) * 16 + 16 = (n - 1 - (j + 1) + 1) * 16 := by ring
        _ = (n - 1 - j) * 16 := by rw [h1]
    rw [← hdd, List.take_append_drop]

lemma cbcDecrypt_chainListC {D : List Nat → List Nat} {ctext : List Nat} {n : Nat}
    (hD : ∀ b, ByteBlock b → ByteBlock (D b)) (hct : ∀ x ∈ ctext, x < 256)
    (hlen : ctext.length = 16 * n) (hn : 1 ≤ n) :
    cbcDecrypt D ((chainListC D ctext n n).flatten) = removePCKCS5Pad ctext := by
  obtain ⟨m, rfl⟩ : ∃ m, n = m + 1 := ⟨n - 1, by omega⟩
  have hchainBB : ByteBlock (encChainN D ctext (m + 1) (m + 1)) :=
    encChainN_byteBlock hD hct hlen hn (m + 1)
  have hmem16 : ∀ b ∈ chainListC D ctext (m + 1) m, b.length = 16 := fun b hb =>
    (chainListC_mem_byteBlock hD hct hlen hn m b hb).1
  rw [cbcDecrypt, cbcDecryptRaw, chainListC, List.flatten_cons,
    List.drop_left' hchainBB.1, List.take_left' hchainBB.1,
    toBlocks_of_flatten _ hmem16]
  have := cbcDecList_chain hD hct hlen hn m (by omega)
  have hz : m + 1 - 1 - m = 0 := by omega
  rw [hz, Nat.zero_mul, List.drop_zero] at this
  rw [this]

/-! Small stepping and error-shape lemmas for the engine and the drivers. -/

lemma decryptBlockAux_step_ok {ε : Type} {σ : List Nat → Nat} {q : OracleF ε}
    {prev cur mi : List Nat} {k v : Nat}
    (h : positionStep σ q prev cur mi k = .ok v) :
    decryptBlockAux σ q prev cur (k + 1) mi =
      decryptBlockAux σ q prev cur k (mi.set k (v ^^^ prev.getD k 0 ^^^ (16 - k))) := by
  rw [decryptBlockAux, h]

lemma decryptBlockAux_step_err {ε : Type} {σ : List Nat → Nat} {q : OracleF ε}
    {prev cur mi : List Nat} {k : Nat} {e : GErr ε}
    (h : positionStep σ q prev cur mi k = .error e) :
    decryptBlockAux σ q prev cur (k + 1) mi = .error e := by
  rw [decryptBlockAux, h]

lemma decryptBlocksAux_step_err {ε : Type} {σ : List Nat → Nat} {q : OracleF ε}
    {c : List Nat} {k i : Nat} {m : List Nat} {e : GErr ε}
    (h : decryptBlockS σ q (blockAt c (i - 1)) (blockAt c i) = .error e) :
    decryptBlocksAux σ q c (k + 1) i m = ([], some e) := by
  rw [decryptBlocksAux, h]

lemma decryptBlocksAux_step_ok {ε : Type} {σ : List Nat → Nat} {q : OracleF ε}
    {c : List Nat} {k i : Nat} {m mi : List Nat}
    (h : decryptBlockS σ q (blockAt c (i - 1)) (blockAt c i) = .ok mi) :
    decryptBlocksAux σ q c (k + 1) i m = decryptBlocksAux σ q c k (i + 1) (m ++ mi) := by
  rw [decryptBlocksAux, h]

lemma encryptAux_step_ok {ε : Type} {σ : List Nat → Nat} {q : OracleF ε}
    {ctext : List Nat} {k : Nat} {c1 c mi : List Nat}
    (h : decryptBlockS σ q (List.replicate 16 0) c1 = .ok mi) :
    encryptAux σ q ctext (k + 1) c1 c =
      encryptAux σ q ctext k (blockXOR (blockAt ctext k) mi)
        (blockXOR (blockAt ctext k) mi ++ c) := by
  rw [encryptAux, h]

lemma encryptAux_step_err {ε : Type} {σ : List Nat → Nat} {q : OracleF ε}
    {ctext : List Nat} {k : Nat} {c1 c : List Nat} {e : GErr ε}
    (h : decryptBlockS σ q (List.replicate 16 0) c1 = .error e) :
    encryptAux σ q ctext (k + 1) c1 c = ([], some e) := by
  rw [encryptAux, h]

lemma positionStep_error_shape {ε : Type} {σ : List Nat → Nat} {q : OracleF ε}
    {prev cur mi : List Nat} {p : Nat} {e : GErr ε}
    (h : positionStep σ q prev cur mi p = .error e) :
    e = .noByteFound ∨ ∃ u, e = .transport u := by
  rw [positionStep] at h
  rcases herr : firstErr q prev cur mi p with - | u
  · rw [herr] at h
    rcases hs : successes q prev cur mi p with - | ⟨a, l⟩
    · rw [hs] at h
      simp only [Except.error.injEq] at h
      exact Or.inl h.symm
    · rw [hs] at h
      exact absurd h (by simp)
  · rw [herr] at h
    simp only [Except.error.injEq] at h
    exact Or.inr ⟨u, h.symm⟩

lemma decryptBlockAux_error_shape {ε : Type} {σ : List Nat → Nat} {q : OracleF ε}
    {prev cur : List Nat} :
    ∀ k (mi : List Nat) (e : GErr ε), decryptBlockAux σ q prev cur k mi = .error e →
      e = .noByteFound ∨ ∃ u, e = .transport u := by
  intro k
  induction k with
  | zero => intro mi e h; exact absurd h (by simp [decryptBlockAux])
  | succ k ih =>
    intro mi e h
    rw [decryptBlockAux] at h
    rcases hstep : positionStep σ q prev cur mi k with e' | v
    · rw [hstep] at h
      simp only [Except.error.injEq] at h
      subst h
      exact positionStep_error_shape hstep
    · rw [hstep] at h
      exact ih _ e h

lemma decryptBlockS_error_shape {ε : Type} {σ : List Nat → Nat} {q : OracleF ε}
    {prev cur : List Nat} {e : GErr ε} (h : decryptBlockS σ q prev cur = .error e) :
    e = .noByteFound ∨ ∃ u, e = .transport u :=
  decryptBlockAux_error_shape 16 _ e h

lemma decryptBlocksAux_never_invalid {ε : Type} {σ : List Nat → Nat} {q : OracleF ε}
    {c : List Nat} :
    ∀ k i (m : List Nat), (decryptBlocksAux σ q c k i m).2 ≠ some .invalidCiphertext := by
  intro k
  induction k with
  | zero => intro i m h; simp [decryptBlocksAux] at h
  | succ k ih =>
    intro i m h
    rw [decryptBlocksAux] at h
    rcases hstep : decryptBlockS σ q (blockAt c (i - 1)) (blockAt c i) with e | mi
    · rw [hstep] at h
      simp only [Option.some.injEq] at h
      rcases decryptBlockS_error_shape hstep with he | ⟨u, he⟩ <;> simp [he] at h
    · rw [hstep] at h
      exact ih (i + 1) (m ++ mi) h

lemma decryptBlocksAux_err_nil {ε : Type} {σ : List Nat → Nat} {q : OracleF ε}
    {c : List Nat} :
    ∀ k i (m : List Nat) (e : GErr ε), (decryptBlocksAux σ q c k i m).2 = some e →
      (decryptBlocksAux σ q c k i m).1 = [] := by
  intro k
  induction k with
  | zero => intro i m e h; simp [decryptBlocksAux] at h
  | succ k ih =>
    intro i m e h
    rcases hstep : decryptBlockS σ q (blockAt c (i - 1)) (blockAt c i) with e' | mi
    · rw [decryptBlocksAux_step_err hstep]
    · rw [decryptBlocksAux_step_ok hstep] at h ⊢
      exact ih (i + 1) (m ++ mi) e h

lemma encryptAux_err_nil {ε : Type} {σ : List Nat → Nat} {q : OracleF ε}
    {ctext : List Nat} :
    ∀ k (c1 c : List Nat) (e : GErr ε), (encryptAux σ q ctext k c1 c).2 = some e →
      (encryptAux σ q ctext k c1 c).1 = [] := by
  intro k
  induction k with
  | zero => intro c1 c e h; simp [encryptAux] at h
  | succ k ih =>
    intro c1 c e h
    rcases hstep : decryptBlockS σ q (List.replicate 16 0) c1 with e' | mi
    · rw [encryptAux_step_err hstep]
    · rw [encryptAux_step_ok hstep] at h ⊢
      exact ih _ _ e h

/-- Decryption attack on a well-formed ciphertext all of whose blocks are
unambiguous: the result is the blockwise XOR-decryption, independently of the
schedule. -/
lemma DecryptS_good_generic {D : List Nat → List Nat} {σ : List Nat → Nat}
    (hσ : PickFn σ) (c : List Nat) (hlen : 32 ≤ c.length) (hmod : c.length % 16 = 0)
    (hblocks : ∀ j, 1 ≤ j → j < c.length / 16 →
      ByteBlock (D (blockAt c j)) ∧
      goodBlock (blockXOR (D (blockAt c j)) (blockAt c (j - 1)))) :
    DecryptS σ c (trueOracle D) =
      (catF (fun j => blockXOR (D (blockAt c j)) (blockAt c (j - 1))) 1
        (c.length / 16 - 1), none) := by
  have hc16 : c.length = 16 * (c.length / 16) := by omega
  rw [DecryptS_valid σ c _ hlen hmod]
  have hchain := decryptBlocksAux_chain
    (fun j => blockXOR (D (blockAt c j)) (blockAt c (j - 1))) (c.length / 16 - 1) 1
    (fun j hj1 hj2 => by
      have hb := hblocks j hj1 (by omega)
      exact decryptBlock_true_good hσ (blockAt_length16 hc16 (by omega))
        (blockAt_length16 hc16 (by omega)) hb.1 hb.2) []
  rw [hchain, List.nil_append]

/-- C5: the pad-candidate builder `buildPad(p, g, C0, M)` is a pure function
returning a block of length exactly B = 16 with `C'[i] = pad ^ M[i] ^ C0[i]`
for `i > p` (`pad = B - p`), `C'[p] = g`, and `C'[i] = C0[i]` for `i < p`. -/
theorem goracler_C5 (p g : Nat) (c m : List Nat) (hp : p < 16) :
    (buildPad p g c m).length = 16 ∧
    (∀ i, p < i → i < 16 →
      (buildPad p g c m).getD i 0 = (16 - p) ^^^ m.getD i 0 ^^^ c.getD i 0) ∧
    (buildPad p g c m).getD p 0 = g ∧
    (∀ i, i < p → (buildPad p g c m).getD i 0 = c.getD i 0) := by
  refine ⟨buildPad_length p g c m, ?_, ?_, ?_⟩
  · intro i hpi hi
    rw [buildPad_getD hp g c m hi, if_neg (by omega), if_neg (by omega)]
  · rw [buildPad_getD hp g c m hp, if_neg (by omega), if_pos rfl]
  · intro i hip
    rw [buildPad_getD hp g c m (by omega), if_pos hip]

/-- Witness for C5 at `p = 3`, `g = 9`, zero blocks. -/
theorem goracler_C5_witness :
    (buildPad 3 9 (List.replicate 16 0) (List.replicate 16 0)).length = 16 ∧
    (∀ i, 3 < i → i < 16 →
      (buildPad 3 9 (List.replicate 16 0) (List.replicate 16 0)).getD i 0 =
        (16 - 3) ^^^ (List.replicate 16 0).getD i 0 ^^^ (List.replicate 16 0).getD i 0) ∧
    (buildPad 3 9 (List.replicate 16 0) (List.replicate 16 0)).getD 3 0 = 9 ∧
    (∀ i, i < 3 →
      (buildPad 3 9 (List.replicate 16 0) (List.replicate 16 0)).getD i 0 =
        (List.replicate 16 0).getD i 0) :=
  goracler_C5 3 9 (List.replicate 16 0) (List.replicate 16 0) (by decide)

/-- C6: Decrypt fails with InvalidCiphertext exactly when the ciphertext is
shorter than 2·B bytes or its length is not a multiple of B, and on such
inputs the result does not depend on the oracle (no query is needed). -/
theorem goracler_C6 {ε : Type} (σ : List Nat → Nat) (q : OracleF ε) (c : List Nat) :
    ((c.length < 2 * 16 ∨ c.length % 16 ≠ 0) ↔
      DecryptS σ c q = ([], some .invalidCiphertext)) ∧
    ((c.length < 2 * 16 ∨ c.length % 16 ≠ 0) →
      ∀ q' : OracleF ε, DecryptS σ c q = DecryptS σ c q') := by
  have hfwd : (c.length < 2 * 16 ∨ c.length % 16 ≠ 0) →
      ∀ q'' : OracleF ε, DecryptS σ c q'' = ([], some .invalidCiphertext) := by
    intro h q''
    simp only [DecryptS]
    by_cases h2 : c.length / 16 < 2
    · rw [if_pos h2]
    · rw [if_neg h2, if_pos (by omega)]
  refine ⟨⟨fun h => hfwd h q, ?_⟩, fun h q' => by rw [hfwd h q, hfwd h q']⟩
  intro h
  by_contra hbad
  push_neg at hbad
  rw [DecryptS_valid σ c q (by omega) (by omega)] at h
  exact decryptBlocksAux_never_invalid _ _ _ (by rw [h])

/-- Witness for C6: a single-block (16-byte) input is rejected with
InvalidCiphertext, and a 15-byte input likewise. -/
theorem goracler_C6_witness :
    DecryptS pickLast (List.replicate 16 0) (fun _ => Except.ok 0 : OracleF Unit) =
      ([], some .invalidCiphertext) ∧
    DecryptS pickLast (List.replicate 15 0) (fun _ => Except.ok 0 : OracleF Unit) =
      ([], some .invalidCiphertext) :=
  ⟨(goracler_C6 pickLast (fun _ => Except.ok 0) (List.replicate 16 0)).1.mp (by decide),
   (goracler_C6 pickLast (fun _ => Except.ok 0) (List.replicate 15 0)).1.mp (by decide)⟩

/-- C7: at position B - 1 = 15 the guess space excludes `C0[15]` and the
engine never sends a query whose crafted last byte equals `C0[15]`; for every
position `p < 15` all 256 guesses are candidates. -/
theorem goracler_C7 (prev cur mi : List Nat) (p : Nat) :
    (p < 15 → guessValues p prev = List.range 256) ∧
    prev.getD 15 0 ∉ guessValues 15 prev ∧
    (∀ query ∈ positionQueries 15 prev cur mi, query.getD 15 0 ≠ prev.getD 15 0) := by
  refine ⟨fun hp => guessValues_of_lt15 (by omega) prev, ?_, ?_⟩
  · intro hmem
    rcases mem_guessValues.mp hmem with ⟨-, hne⟩
    exact hne ⟨rfl, rfl⟩
  · intro query hq
    rcases List.mem_map.mp hq with ⟨g, hg, rfl⟩
    rcases mem_guessValues.mp hg with ⟨-, hne⟩
    have hlen : (buildPad 15 g prev mi).length = 16 := buildPad_length _ _ _ _
    rw [List.getD_append _ _ _ _ (by omega),
      buildPad_getD (by omega) g prev mi (by omega : (15 : Nat) < 16),
      if_neg (by omega), if_pos rfl]
    intro hc
    exact hne ⟨hc, rfl⟩

/-- Witness for C7 on concrete zero blocks. -/
theorem goracler_C7_witness :
    guessValues 0 (List.replicate 16 0) = List.range 256 ∧
    (List.replicate 16 0).getD 15 0 ∉ guessValues 15 (List.replicate 16 0) :=
  ⟨(goracler_C7 (List.replicate 16 0) (List.replicate 16 0) (List.replicate 16 0) 0).1
      (by decide),
   (goracler_C7 (List.replicate 16 0) (List.replicate 16 0) (List.replicate 16 0) 0).2.1⟩

/-- C8: a position where the pool reports no success and no error makes the
engine fail with the NoByteFound error; a transport error reported by the
pool is propagated verbatim by the engine, and an engine error on the first
block aborts the whole Decrypt attack with that very error. -/
theorem goracler_C8 {ε : Type} (σ : List Nat → Nat) (q : OracleF ε) (prev cur : List Nat) :
    (∀ (mi : List Nat) (k : Nat), firstErr q prev cur mi k = none →
      successes q prev cur mi k = [] →
      decryptBlockAux σ q prev cur (k + 1) mi = .error .noByteFound) ∧
    (∀ (mi : List Nat) (k : Nat) (e : ε), firstErr q prev cur mi k = some e →
      decryptBlockAux σ q prev cur (k + 1) mi = .error (.transport e)) ∧
    (∀ (c : List Nat) (e : GErr ε), 32 ≤ c.length → c.length % 16 = 0 →
      decryptBlockS σ q (blockAt c 0) (blockAt c 1) = .error e →
      DecryptS σ c q = ([], some e)) := by
  refine ⟨?_, ?_, ?_⟩
  · intro mi k herr hsucc
    apply decryptBlockAux_step_err
    rw [positionStep, herr, hsucc]
  · intro mi k e herr
    apply decryptBlockAux_step_err
    rw [positionStep, herr]
  · intro c e hlen hmod hblk
    rw [DecryptS_valid σ c q hlen hmod]
    obtain ⟨mm, hmm⟩ : ∃ mm, c.length / 16 - 1 = mm + 1 := ⟨c.length / 16 - 2, by omega⟩
    rw [hmm]
    have hblk' : decryptBlockS σ q (blockAt c (1 - 1)) (blockAt c 1) = .error e := hblk
    exact decryptBlocksAux_step_err hblk'

/-- Witness for C8: an oracle that always answers "invalid pad" produces
NoByteFound, and an always-failing oracle aborts Decrypt with its transport
error. -/
theorem goracler_C8_witness :
    decryptBlockAux pickLast (fun _ => Except.ok 0 : OracleF Unit) (List.replicate 16 0)
      (List.replicate 16 0) 16 (List.replicate 16 0) = .error .noByteFound ∧
    DecryptS pickLast (List.replicate 32 0) (fun _ => Except.error () : OracleF Unit) =
      ([], some (.transport ())) :=
  ⟨(goracler_C8 pickLast (fun _ => Except.ok 0) (List.replicate 16 0)
      (List.replicate 16 0)).1 (List.replicate 16 0) 15 (by decide) (by decide),
   (goracler_C8 pickLast (fun _ => Except.error ()) (blockAt (List.replicate 32 0) 0)
      (blockAt (List.replicate 32 0) 1)).2.2 (List.replicate 32 0) (.transport ())
      (by decide) (by decide) (by decide)⟩

/-- C10: whenever Decrypt returns an error it returns the empty plaintext,
and whenever Encrypt returns an error it returns an empty ciphertext: no
partial result survives a failure. -/
theorem goracler_C10 {ε : Type} (σ : List Nat → Nat) (q : OracleF ε) (c txt : List Nat) :
    (∀ e : GErr ε, (DecryptS σ c q).2 = some e → (DecryptS σ c q).1 = []) ∧
    (∀ e : GErr ε, (EncryptS σ txt q).2 = some e → (EncryptS σ txt q).1 = []) := by
  constructor
  · intro e h
    simp only [DecryptS] at h ⊢
    by_cases h2 : c.length / 16 < 2
    · rw [if_pos h2]
    · rw [if_neg h2] at h ⊢
      by_cases h3 : c.length % 16 ≠ 0
      · rw [if_pos h3]
      · rw [if_neg h3] at h ⊢
        exact decryptBlocksAux_err_nil _ _ _ e h
  · intro e h
    simp only [EncryptS] at h ⊢
    exact encryptAux_err_nil _ _ _ e h

/-- Witness for C10: a malformed Decrypt input and a failing-oracle Encrypt
both return empty results alongside their errors. -/
theorem goracler_C10_witness :
    (DecryptS pickLast [] (fun _ => Except.ok 0 : OracleF Unit)).1 = [] ∧
    (EncryptS pickLast [] (fun _ => Except.error () : OracleF Unit)).1 = [] :=
  ⟨(goracler_C10 pickLast (fun _ => Except.ok 0) [] []).1 .invalidCiphertext (by decide),
   (goracler_C10 pickLast (fun _ => Except.error ()) [] []).2 (.transport ()) (by decide)⟩

/-- C1 counterexample: for the identity block cipher, zero IV and the
15-byte zero plaintext (PKCS pad length 1), Decrypt through the true-decryptor
oracle fails with NoByteFound instead of returning the padded plaintext: the
only guess producing the length-1 pad at position 15 is the excluded one. -/
theorem goracler_C1_counterexample :
    DecryptS pickLast (cbcEncrypt (fun b => b) (List.replicate 16 0) (List.replicate 15 0))
      (trueOracle (fun b => b)) = ([], some .noByteFound) ∧
    (([], some .noByteFound) : List Nat × Option (GErr Unit)) ≠
      (pkcs5Pad (List.replicate 15 0), none) :=
  ⟨by decide, by decide⟩

/-- C1 amended: the decryption round trip
`Decrypt(CBC_Encrypt(IV, key, P)) = PKCS_Pad(P)` holds through an oracle
wrapping the true decryptor provided every block of the padded plaintext is
unambiguous at the right-most position (its last byte is not 1 and any longer
pad pattern it contains agrees with its last byte). -/
theorem goracler_C1_amended (E D : List Nat → List Nat) (σ : List Nat → Nat)
    (iv msg : List Nat) (hσ : PickFn σ)
    (hE : ∀ b, ByteBlock b → ByteBlock (E b))
    (hDE : ∀ b, ByteBlock b → D (E b) = b)
    (hiv : ByteBlock iv) (hmsg : ∀ x ∈ msg, x < 256)
    (hgood : ∀ b ∈ toBlocks (pkcs5Pad msg), goodBlock b) :
    DecryptS σ (cbcEncrypt E iv msg) (trueOracle D) = (pkcs5Pad msg, none) :=
  DecryptS_cbcEncrypt hσ hE hDE iv msg hiv hmsg hgood

/-- Witness for the amended C1 with the identity cipher and the plaintext
"Hello". -/
theorem goracler_C1_witness :
    DecryptS pickLast
      (cbcEncrypt (fun b => b) (List.replicate 16 0) [72, 101, 108, 108, 111])
      (trueOracle (fun b => b)) = (pkcs5Pad [72, 101, 108, 108, 111], none) :=
  goracler_C1_amended (fun b => b) (fun b => b) pickLast (List.replicate 16 0)
    [72, 101, 108, 108, 111] pickLast_isPick (fun _ hb => hb) (fun _ _ => rfl)
    (by decide) (by decide) (by decide)

/-- C3 counterexample: with the identity cipher, `C0` all-7s and `C1` all-2s,
the engine succeeds and returns the all-5s plaintext block, whereas the
intermediate `I(C1)` is all-2s: the engine's output is the plaintext
`I(C1) XOR C0`, not the intermediate `I(C1)` itself. -/
theorem goracler_C3_counterexample :
    decryptBlockS pickLast (trueOracle (fun b => b)) (List.replicate 16 7)
      (List.replicate 16 2) = .ok (List.replicate 16 5) ∧
    (List.replicate 16 5 : List Nat).getD 0 0 ≠ (List.replicate 16 2 : List Nat).getD 0 0 := by
  constructor
  · have h := @decryptBlock_true_good (fun b => b) (List.replicate 16 7)
      (List.replicate 16 2) pickLast pickLast_isPick (by decide) (by decide)
      (by decide) (by decide)
    exact h.trans (congrArg Except.ok (by decide))
  · decide

/-- C3 amended: on an unambiguous block the engine output `m` is the
plaintext of that block, so `I(C1)[j] = m[j] XOR C0[j]` for every `j`, and
each confirmed byte equals the intermediate XORed with `C0`. -/
theorem goracler_C3_amended (D : List Nat → List Nat) (σ : List Nat → Nat)
    (C0 C1 : List Nat) (hσ : PickFn σ) (h0 : C0.length = 16) (h1 : C1.length = 16)
    (hI : ByteBlock (D C1)) (hgood : goodBlock (blockXOR (D C1) C0)) :
    decryptBlockS σ (trueOracle D) C0 C1 = .ok (blockXOR (D C1) C0) ∧
    ∀ j < 16, (D C1).getD j 0 = (blockXOR (D C1) C0).getD j 0 ^^^ C0.getD j 0 := by
  refine ⟨decryptBlock_true_good hσ h0 h1 hI hgood, ?_⟩
  intro j hj
  rw [blockXOR_getD16 hI.1 h0 hj, xor_xor_self]

/-- Witness for the amended C3 at the all-7s/all-2s instance. -/
theorem goracler_C3_witness :
    decryptBlockS pickLast (trueOracle (fun b => b)) (List.replicate 16 7)
      (List.replicate 16 2) = .ok (blockXOR (List.replicate 16 2) (List.replicate 16 7)) :=
  (goracler_C3_amended (fun b => b) pickLast (List.replicate 16 7) (List.replicate 16 2)
    pickLast_isPick (by decide) (by decide) (by decide) (by decide)).1

/-- C2 counterexample: for the identity cipher and the 31-byte zero plaintext
(PKCS pad length 1), Encrypt aborts with NoByteFound on its second block
(whose target last byte 1 makes the unique valid guess the excluded one), so
the produced ciphertext is empty and does not decrypt to the plaintext. -/
theorem goracler_C2_counterexample :
    cbcDecrypt (fun b => b)
      (EncryptS pickLast (List.replicate 31 0) (trueOracle (fun b => b))).1 ≠
      .ok (List.replicate 31 0) := by
  have hb1 : decryptBlockS pickLast (trueOracle (fun b => b)) (List.replicate 16 0)
      (List.replicate 16 0) = .ok (blockXOR (List.replicate 16 0) (List.replicate 16 0)) :=
    @decryptBlock_true_good (fun b => b) (List.replicate 16 0) (List.replicate 16 0)
      pickLast pickLast_isPick (by decide) (by decide) (by decide) (by decide)
  have t1 : encryptAux pickLast (trueOracle (fun b => b))
      (pkcs5Pad (List.replicate 31 0)) (1 + 1) (List.replicate 16 0) (List.replicate 16 0) =
      encryptAux pickLast (trueOracle (fun b => b)) (pkcs5Pad (List.replicate 31 0)) 1
        (blockXOR (blockAt (pkcs5Pad (List.replicate 31 0)) 1)
          (blockXOR (List.replicate 16 0) (List.replicate 16 0)))
        (blockXOR (blockAt (pkcs5Pad (List.replicate 31 0)) 1)
          (blockXOR (List.replicate 16 0) (List.replicate 16 0)) ++ List.replicate 16 0) :=
    encryptAux_step_ok hb1
  have herr : decryptBlockS pickLast (trueOracle (fun b => b)) (List.replicate 16 0)
      (blockXOR (blockAt (pkcs5Pad (List.replicate 31 0)) 1)
        (blockXOR (List.replicate 16 0) (List.replicate 16 0))) =
      .error .noByteFound := by decide
  have t2 : encryptAux pickLast (trueOracle (fun b => b))
      (pkcs5Pad (List.replicate 31 0)) (0 + 1)
      (blockXOR (blockAt (pkcs5Pad (List.replicate 31 0)) 1)
        (blockXOR (List.replicate 16 0) (List.replicate 16 0)))
      (blockXOR (blockAt (pkcs5Pad (List.replicate 31 0)) 1)
        (blockXOR (List.replicate 16 0) (List.replicate 16 0)) ++ List.replicate 16 0) =
      ([], some .noByteFound) :=
    encryptAux_step_err herr
  have hrun : EncryptS pickLast (List.replicate 31 0) (trueOracle (fun b => b)) =
      ([], some .noByteFound) := by
    show encryptAux pickLast (trueOracle (fun b => b)) (pkcs5Pad (List.replicate 31 0))
      ((pkcs5Pad (List.replicate 31 0)).length / 16) (List.replicate 16 0)
      (List.replicate 16 0) = ([], some .noByteFound)
    exact t1.trans t2
  rw [hrun]
  decide

/-- C2 amended: whenever, at every step of the right-to-left Encrypt loop,
the intermediate of the chain block built so far is unambiguous at the
right-most position, the attack succeeds and the produced ciphertext
CBC-decrypts (with pad stripping) to exactly the requested plaintext. -/
theorem goracler_C2_amended (D : List Nat → List Nat) (σ : List Nat → Nat) (txt : List Nat)
    (hσ : PickFn σ) (hD : ∀ b, ByteBlock b → ByteBlock (D b))
    (htxt : ∀ x ∈ txt, x < 256)
    (hgood : ∀ j < (pkcs5Pad txt).length / 16,
      goodBlock (D (encChainN D (pkcs5Pad txt) ((pkcs5Pad txt).length / 16) j))) :
    (EncryptS σ txt (trueOracle D)).2 = none ∧
    cbcDecrypt D (EncryptS σ txt (trueOracle D)).1 = .ok txt := by
  have hrun := EncryptS_chain hσ txt htxt hgood hD
  have hmod := pkcs5Pad_length_mod txt
  have hpos := pkcs5Pad_length_pos txt
  refine ⟨by rw [hrun], ?_⟩
  rw [hrun]
  show cbcDecrypt D ((chainListC D (pkcs5Pad txt) ((pkcs5Pad txt).length / 16)
    ((pkcs5Pad txt).length / 16)).flatten) = .ok txt
  rw [cbcDecrypt_chainListC hD (pkcs5Pad_bytes htxt) (by omega) (by omega),
    removePad_pkcs5Pad]

/-- Witness for the amended C2 with the identity cipher and plaintext
"abc". -/
theorem goracler_C2_witness :
    (EncryptS pickLast [97, 98, 99] (trueOracle (fun b => b))).2 = none ∧
    cbcDecrypt (fun b => b)
      (EncryptS pickLast [97, 98, 99] (trueOracle (fun b => b))).1 = .ok [97, 98, 99] :=
  goracler_C2_amended (fun b => b) pickLast [97, 98, 99] pickLast_isPick
    (fun _ hb => hb) (by decide)
    (by
      intro j hj
      have h1 : (pkcs5Pad [97, 98, 99]).length / 16 = 1 := by decide
      have hj0 : j = 0 := by omega
      subst hj0
      decide)

/-- C4: behaviour of the source at a right-most-position double success.  For
the identity cipher, zero `C0` and `C1 = 0^13 || 3 3 0`, two guesses (1 and 3)
are reported valid at position 15; every query of that position copies
`C0[14]` verbatim (no perturb-and-requery disambiguation is ever sent), and
the engine confirms the last racing success (guess 3, the longer-pad false
positive) instead of disambiguating. -/
theorem goracler_C4_no_disambiguation :
    successes (trueOracle (fun b => b)) (List.replicate 16 0)
      (List.replicate 13 0 ++ [3, 3, 0]) (List.replicate 16 0) 15 = [1, 3] ∧
    (∀ query ∈ positionQueries 15 (List.replicate 16 0)
      (List.replicate 13 0 ++ [3, 3, 0]) (List.replicate 16 0),
      query.getD 14 0 = (List.replicate 16 0).getD 14 0) ∧
    positionStep pickLast (trueOracle (fun b => b)) (List.replicate 16 0)
      (List.replicate 13 0 ++ [3, 3, 0]) (List.replicate 16 0) 15 = .ok 3 := by
  have hs : successes (trueOracle (fun b => b)) (List.replicate 16 0)
      (List.replicate 13 0 ++ [3, 3, 0]) (List.replicate 16 0) 15 = [1, 3] := by decide
  refine ⟨hs, by decide, ?_⟩
  rw [positionStep, firstErr_trueOracle, hs]
  rfl

/-- C9 counterexample: two schedules of the racing pool, first-success-wins
and last-success-wins, give different results for the same ciphertext through
the same deterministic oracle: the right-most double success makes one run
recover the block and the other fail with NoByteFound. -/
theorem goracler_C9_counterexample :
    DecryptS pickFirst (List.replicate 16 0 ++ (List.replicate 13 0 ++ [3, 3, 0]))
      (trueOracle (fun b => b)) ≠
    DecryptS pickLast (List.replicate 16 0 ++ (List.replicate 13 0 ++ [3, 3, 0]))
      (trueOracle (fun b => b)) := by
  have hs : successes (trueOracle (fun b => b)) (List.replicate 16 0)
      (List.replicate 13 0 ++ [3, 3, 0]) (List.replicate 16 0) 15 = [1, 3] := by decide
  have hb0 : blockAt (List.replicate 16 0 ++ (List.replicate 13 0 ++ [3, 3, 0])) 0 =
      List.replicate 16 0 := by decide
  have hb1 : blockAt (List.replicate 16 0 ++ (List.replicate 13 0 ++ [3, 3, 0])) 1 =
      List.replicate 13 0 ++ [3, 3, 0] := by decide
  -- first-success-wins run: the correct guess 1 wins; the block is recovered
  have h15f : positionStep pickFirst (trueOracle (fun b => b)) (List.replicate 16 0)
      (List.replicate 13 0 ++ [3, 3, 0]) (List.replicate 16 0) 15 =
      .ok (1 ^^^ ((fun (b : List Nat) => b)
        (List.replicate 13 0 ++ [3, 3, 0])).getD 15 0) := by
    rw [positionStep, firstErr_trueOracle, hs]
    rfl
  have hrun1 : decryptBlockS pickFirst (trueOracle (fun b => b)) (List.replicate 16 0)
      (List.replicate 13 0 ++ [3, 3, 0]) =
      .ok (blockXOR ((fun (b : List Nat) => b) (List.replicate 13 0 ++ [3, 3, 0]))
        (List.replicate 16 0)) :=
    @decryptBlock_sel (fun b => b) (List.replicate 16 0) (List.replicate 13 0 ++ [3, 3, 0])
      pickFirst pickFirst_isPick (by decide) (by decide) (by decide) h15f
  have hstep : ∀ j, 1 ≤ j → j < 1 + 1 →
      decryptBlockS pickFirst (trueOracle (fun b => b))
        (blockAt (List.replicate 16 0 ++ (List.replicate 13 0 ++ [3, 3, 0])) (j - 1))
        (blockAt (List.replicate 16 0 ++ (List.replicate 13 0 ++ [3, 3, 0])) j) =
      .ok ((fun _ => blockXOR ((fun (b : List Nat) => b) (List.replicate 13 0 ++ [3, 3, 0]))
        (List.replicate 16 0)) j) := by
    intro j h1 h2
    have hj : j = 1 := by omega
    subst hj
    show decryptBlockS pickFirst (trueOracle (fun b => b))
      (blockAt (List.replicate 16 0 ++ (List.replicate 13 0 ++ [3, 3, 0])) 0)
      (blockAt (List.replicate 16 0 ++ (List.replicate 13 0 ++ [3, 3, 0])) 1) = _
    rw [hb0, hb1]
    exact hrun1
  have hD1 : DecryptS pickFirst (List.replicate 16 0 ++ (List.replicate 13 0 ++ [3, 3, 0]))
      (trueOracle (fun b => b)) =
      ([] ++ catF (fun _ => blockXOR ((fun (b : List Nat) => b)
        (List.replicate 13 0 ++ [3, 3, 0])) (List.replicate 16 0)) 1 1, none) :=
    (DecryptS_valid pickFirst _ _ (by decide) (by decide)).trans
      (decryptBlocksAux_chain _ 1 1 hstep [])
  -- last-success-wins run: the false positive 3 wins and position 14 fails
  have s1 : positionStep pickLast (trueOracle (fun b => b)) (List.replicate 16 0)
      (List.replicate 13 0 ++ [3, 3, 0]) (List.replicate 16 0) 15 = .ok 3 := by
    rw [positionStep, firstErr_trueOracle, hs]
    rfl
  have t1 := decryptBlockAux_step_ok s1
  have s2 : positionStep pickLast (trueOracle (fun b => b)) (List.replicate 16 0)
      (List.replicate 13 0 ++ [3, 3, 0])
      ((List.replicate 16 0).set 15
        (3 ^^^ (List.replicate 16 0).getD 15 0 ^^^ (16 - 15))) 14 =
      .error .noByteFound := by decide
  have t2 := decryptBlockAux_step_err s2
  have hblk2 : decryptBlockS pickLast (trueOracle (fun b => b)) (List.replicate 16 0)
      (List.replicate 13 0 ++ [3, 3, 0]) = .error .noByteFound := t1.trans t2
  have hblk2' : decryptBlockS pickLast (trueOracle (fun b => b))
      (blockAt (List.replicate 16 0 ++ (List.replicate 13 0 ++ [3, 3, 0])) (1 - 1))
      (blockAt (List.replicate 16 0 ++ (List.replicate 13 0 ++ [3, 3, 0])) 1) =
      .error .noByteFound := by
    show decryptBlockS pickLast (trueOracle (fun b => b))
      (blockAt (List.replicate 16 0 ++ (List.replicate 13 0 ++ [3, 3, 0])) 0)
      (blockAt (List.replicate 16 0 ++ (List.replicate 13 0 ++ [3, 3, 0])) 1) = _
    rw [hb0, hb1]
    exact hblk2
  have hD2 : DecryptS pickLast (List.replicate 16 0 ++ (List.replicate 13 0 ++ [3, 3, 0]))
      (trueOracle (fun b => b)) = ([], some .noByteFound) :=
    (DecryptS_valid pickLast _ _ (by decide) (by decide)).trans
      (decryptBlocksAux_step_err hblk2')
  rw [hD1, hD2]
  intro hcontra
  have := congrArg Prod.snd hcontra
  simp at this

/-- C9 amended: decryption is a deterministic function of the ciphertext and
the oracle answers provided every block is unambiguous at the right-most
position: any two schedules of the racing pool then return byte-identical
results. -/
theorem goracler_C9_amended (D : List Nat → List Nat) (σ₁ σ₂ : List Nat → Nat)
    (c : List Nat) (h1 : PickFn σ₁) (h2 : PickFn σ₂)
    (hlen : 32 ≤ c.length) (hmod : c.length % 16 = 0)
    (hblocks : ∀ j, 1 ≤ j → j < c.length / 16 →
      ByteBlock (D (blockAt c j)) ∧
      goodBlock (blockXOR (D (blockAt c j)) (blockAt c (j - 1)))) :
    DecryptS σ₁ c (trueOracle D) = DecryptS σ₂ c (trueOracle D) :=
  (DecryptS_good_generic h1 c hlen hmod hblocks).trans
    (DecryptS_good_generic h2 c hlen hmod hblocks).symm

/-- Witness for the amended C9 at a concrete two-block ciphertext. -/
theorem goracler_C9_witness :
    DecryptS pickFirst (List.replicate 16 7 ++ List.replicate 16 2)
      (trueOracle (fun b => b)) =
    DecryptS pickLast (List.replicate 16 7 ++ List.replicate 16 2)
      (trueOracle (fun b => b)) :=
  goracler_C9_amended (fun b => b) pickFirst pickLast
    (List.replicate 16 7 ++ List.replicate 16 2) pickFirst_isPick pickLast_isPick
    (by decide) (by decide)
    (by
      intro j hj1 hj2
      have h1 : (List.replicate 16 7 ++ List.replicate 16 2 : List Nat).length / 16 = 2 := by
        decide
      have hj : j = 1 := by omega
      subst hj
      exact ⟨by decide, by decide⟩)
